import Mathlib

/-!
# Sample-data language intelligence for the JSONata editor mode

A shallow embedding of `src/jsonata-mode/src/index.ts` (and of the compiled
variant `src/dist/index.js`, which differs in its hover provider only).

Modelling conventions.

* A JavaScript string is a list of characters (`Str`); one character stands for
  one code unit, so `length` is `List.length`.
* A JavaScript value is a `Val`.  An object is the list of its own enumerable
  properties in enumeration order, an array the list of its elements.  Property
  access `v[key]` reads own properties first and then the built-in prototypes:
  `Object.prototype` for an object, `Array.prototype` and then `Object.prototype`
  for an array.  The names those prototypes define, and the text of a built-in
  function, belong to the engine and are a parameter (`Host`); the prototypes and
  their functions are values of their own.
* A number is represented by the text `Number.prototype.toString` gives it, which
  tells numbers apart up to the sign of zero.
* The expression parser and the editor are not part of the repository: the parser
  is a parameter of `validate`, the editor is an explicit state.
-/

namespace JsonataMode

/-- A JavaScript string, as the list of its characters. -/
abbrev Str := List Char

/-- The built-in prototypes that objects and arrays inherit from. -/
inductive Proto where
  | object
  | array
  deriving DecidableEq

/-- JavaScript values that a sample document and a path resolution can hold: the JSON
kinds, `undefined`, the two built-in prototypes and the built-in functions they define.
A number carries its canonical text. -/
inductive Val where
  | undefined
  | null
  | bool (b : Bool)
  | num (text : Str)
  | str (s : Str)
  | arr (items : List Val)
  | obj (fields : List (Str × Val))
  | proto (p : Proto)
  | builtin (p : Proto) (name : Str)

instance : Inhabited Val := ⟨Val.undefined⟩

/-- What the engine contributes to property access and printing: the names of the
functions that `Object.prototype` and `Array.prototype` define, none of which is a run of
digits, and the text of a built-in function. -/
structure Host where
  objectMembers : List Str
  arrayMembers : List Str
  functionText : Proto → Str → Str
  namesNotIndices :
    (objectMembers ++ arrayMembers).all (fun k => !k.all Char.isDigit || k.isEmpty) = true

/-- Result of the `typeof` operator. -/
inductive TypeTag where
  | tUndefined
  | tObject
  | tBool
  | tNumber
  | tString
  | tFunction
  deriving DecidableEq

/-- The `typeof` operator: `null`, arrays, objects and the prototypes are of object
type, a built-in function is of function type. -/
def typeOf : Val → TypeTag
  | Val.undefined => TypeTag.tUndefined
  | Val.null => TypeTag.tObject
  | Val.bool _ => TypeTag.tBool
  | Val.num _ => TypeTag.tNumber
  | Val.str _ => TypeTag.tString
  | Val.arr _ => TypeTag.tObject
  | Val.obj _ => TypeTag.tObject
  | Val.proto _ => TypeTag.tObject
  | Val.builtin _ _ => TypeTag.tFunction

/-- JavaScript truthiness (`ToBoolean`); the numbers `0` and `NaN` are falsy. -/
def truthy : Val → Bool
  | Val.undefined => false
  | Val.null => false
  | Val.bool b => b
  | Val.num text => !(decide (text = "0".toList) || decide (text = "NaN".toList))
  | Val.str s => !s.isEmpty
  | Val.arr _ => true
  | Val.obj _ => true
  | Val.proto _ => true
  | Val.builtin _ _ => true

/-- Decimal form of a natural number. -/
def decimalNat (n : Nat) : Str :=
  Nat.toDigits 10 n

/-- The number value of a natural number below 10^21, which prints in plain decimal. -/
def Val.ofNat (n : Nat) : Val :=
  Val.num (decimalNat n)

/-- Whether a property list has an own property `key`. -/
def hasOwn (key : Str) (fields : List (Str × Val)) : Bool :=
  fields.any (fun e => decide (e.1 = key))

/-- The value of the own property `key` in a property list, `undefined` when there is none. -/
def ownProperty (key : Str) : List (Str × Val) → Val
  | [] => Val.undefined
  | (k, v) :: rest => if k = key then v else ownProperty key rest

/-- The array index a property key denotes: the key must be the canonical decimal
form of a number (`"0"`, or digits without a leading zero). -/
def arrayIndex (key : Str) : Option Nat :=
  match key with
  | [] => none
  | [c] => if c.isDigit then some (c.toNat - 48) else none
  | c :: cs =>
    if c = '0' then none
    else if (c :: cs).all Char.isDigit then
      some ((c :: cs).foldl (fun n d => 10 * n + (d.toNat - 48)) 0)
    else none

/-- Own property `key` of an array, if it has one: `length`, or the element at a
canonical index below the length. -/
def arrayOwn (items : List Val) (key : Str) : Option Val :=
  if key = "length".toList then some (Val.ofNat items.length)
  else
    match arrayIndex key with
    | some i => items[i]?
    | none => none

/-- Property `key` as `Object.prototype` answers it for a receiver whose prototype is
`parent`: the accessor `__proto__` gives the prototype of the receiver, a name the
engine defines gives that built-in function, any other name gives `undefined`. -/
def objectProtoProperty (host : Host) (parent : Val) (key : Str) : Val :=
  if key = "__proto__".toList then parent
  else if key ∈ host.objectMembers then Val.builtin Proto.object key
  else Val.undefined

/-- Property `key` as `Array.prototype` answers it for a receiver whose prototype is
`parent`: a name the engine defines on it gives that built-in function, any other name
is passed on to `Object.prototype`. -/
def arrayProtoProperty (host : Host) (parent : Val) (key : Str) : Val :=
  if key ∈ host.arrayMembers then Val.builtin Proto.array key
  else objectProtoProperty host parent key

/-- Property access `v[key]` on a non-null value of object type, the only values it is
applied to: own properties first, then the prototype chain. -/
def getProp (host : Host) (v : Val) (key : Str) : Val :=
  match v with
  | Val.obj fields =>
    if hasOwn key fields then ownProperty key fields
    else objectProtoProperty host (Val.proto Proto.object) key
  | Val.arr items =>
    match arrayOwn items key with
    | some value => value
    | none => arrayProtoProperty host (Val.proto Proto.array) key
  | Val.proto Proto.object => objectProtoProperty host Val.null key
  | Val.proto Proto.array =>
    if key = "length".toList then Val.ofNat 0
    else arrayProtoProperty host (Val.proto Proto.object) key
  | _ => Val.undefined

/-- The method `String.prototype.split` with a one-character separator. -/
def splitOn (sep : Char) : Str → List Str
  | [] => [[]]
  | c :: cs =>
    if c = sep then [] :: splitOn sep cs
    else
      match splitOn sep cs with
      | [] => [[c]]
      | seg :: segs => (c :: seg) :: segs

/-- The test `Array.isArray`. -/
def isArray : Val → Bool
  | Val.arr _ => true
  | Val.proto Proto.array => true
  | _ => false

/-- The helper `isObject`: `item && typeof item === 'object' && !Array.isArray(item)`. -/
def isObject (item : Val) : Bool :=
  truthy item && decide (typeOf item = TypeTag.tObject) && !isArray item

/-- The reducer of `getObjectFromPath`:
`currentObject && typeof currentObject === 'object' ? currentObject[key] : undefined`. -/
def pathStep (host : Host) (currentObject : Val) (key : Str) : Val :=
  if truthy currentObject && decide (typeOf currentObject = TypeTag.tObject) then
    getProp host currentObject key
  else Val.undefined

/-- The resolver `getObjectFromPath(obj, path)`; `none` is a missing path. -/
def getObjectFromPath (host : Host) (obj : Val) (path : Option Str) : Val :=
  match path with
  | none => obj
  | some p =>
    if p.isEmpty then obj
    else (splitOn '.' p).foldl (pathStep host) obj

/-- The error a property access raises. -/
inductive JsError where
  | typeError
  deriving DecidableEq

/-- Property access `v[key]` with its error: reading a property of `undefined` or `null`
raises a type error. -/
def propertyAccess (host : Host) (v : Val) (key : Str) : Except JsError Val :=
  match v with
  | Val.undefined => Except.error JsError.typeError
  | Val.null => Except.error JsError.typeError
  | other => Except.ok (getProp host other key)

/-- The reducer of `getObjectFromPath`, with the error a property access can raise. -/
def pathStepRaising (host : Host) (currentObject : Val) (key : Str) : Except JsError Val :=
  if truthy currentObject && decide (typeOf currentObject = TypeTag.tObject) then
    propertyAccess host currentObject key
  else Except.ok Val.undefined

/-- The fold of `getObjectFromPath` over the segments, stopping at the first error. -/
def foldRaising (host : Host) : Val → List Str → Except JsError Val
  | v, [] => Except.ok v
  | v, key :: rest =>
    match pathStepRaising host v key with
    | Except.ok next => foldRaising host next rest
    | Except.error err => Except.error err

/-- The resolver `getObjectFromPath(obj, path)` with the errors its property accesses
can raise. -/
def getObjectFromPathRaising (host : Host) (obj : Val) (path : Option Str) :
    Except JsError Val :=
  match path with
  | none => Except.ok obj
  | some p =>
    if p.isEmpty then Except.ok obj
    else foldRaising host obj (splitOn '.' p)

/-- An engine with the members of the ECMAScript 2023 prototypes; it prints a built-in
function as `function name() { [native code] }`. -/
def standardHost : Host where
  objectMembers :=
    ["constructor", "hasOwnProperty", "isPrototypeOf", "propertyIsEnumerable",
     "toLocaleString", "toString", "valueOf", "__defineGetter__", "__defineSetter__",
     "__lookupGetter__", "__lookupSetter__"].map String.toList
  arrayMembers :=
    ["at", "concat", "constructor", "copyWithin", "entries", "every", "fill", "filter",
     "find", "findIndex", "findLast", "findLastIndex", "flat", "flatMap", "forEach",
     "includes", "indexOf", "join", "keys", "lastIndexOf", "map", "pop", "push", "reduce",
     "reduceRight", "reverse", "shift", "slice", "some", "sort", "splice",
     "toLocaleString", "toReversed", "toSorted", "toSpliced", "toString", "unshift",
     "values", "with"].map String.toList
  functionText := fun p name =>
    "function ".toList
      ++ (if name = "constructor".toList then
            (match p with
              | Proto.object => "Object".toList
              | Proto.array => "Array".toList)
          else name)
      ++ "() \x7b [native code] \x7d".toList
  namesNotIndices := by decide

/-! ## Specification-side notions for the path resolver -/

/-- The leaf a chain of keys leads to, in the words of the specification: every key
but the last exists and holds an object, the last key exists; yields the value
stored under the last key. -/
def specLeaf : Val → List Str → Option Val
  | Val.obj fields, [k] => (fields.find? (fun e => decide (e.1 = k))).map Prod.snd
  | Val.obj fields, k :: k2 :: rest =>
    match fields.find? (fun e => decide (e.1 = k)) with
    | some (_, Val.obj inner) => specLeaf (Val.obj inner) (k2 :: rest)
    | _ => none
  | _, _ => none

/-- A value at which resolution stops: `undefined`, `null`, or a value that is not of
object type (a boolean, a number, a string, a function). -/
def notObjectKind : Val → Bool
  | Val.obj _ => false
  | Val.arr _ => false
  | Val.proto _ => false
  | _ => true

/-- A name that an object inherits from `Object.prototype`. -/
def inheritedName (host : Host) (k : Str) : Prop :=
  k = "__proto__".toList ∨ k ∈ host.objectMembers

/-- Resolution stops after the segments `pre`: the last key of `pre` is missing from the
object reached before it and is not an inherited name, or the value reached after `pre`
is `undefined`, `null`, or not of object type. -/
def SpecStops (host : Host) (D : Val) (pre : List Str) : Prop :=
  (∃ (before : List Str) (k : Str) (fields : List (Str × Val)),
      pre = before ++ [k] ∧ before.foldl (pathStep host) D = Val.obj fields ∧
      (∀ e ∈ fields, e.1 ≠ k) ∧ ¬ inheritedName host k)
  ∨ notObjectKind (pre.foldl (pathStep host) D) = true

/-- Sample document `{"a": [10, 20]}`. -/
def sampleWithArray : Val :=
  Val.obj [("a".toList, Val.arr [Val.num "10".toList, Val.num "20".toList])]

/-- Sample document `{"a": 5}`. -/
def sampleNumber : Val :=
  Val.obj [("a".toList, Val.num "5".toList)]

/-- Sample document `{"a": {"b": 1, "c": 2}}`. -/
def sampleNested : Val :=
  Val.obj [("a".toList,
    Val.obj [("b".toList, Val.num "1".toList), ("c".toList, Val.num "2".toList)])]

/-! ## Completion provider -/

/-- A range in editor coordinates (1-based line and column). -/
structure Range where
  startLineNumber : Nat
  startColumn : Nat
  endLineNumber : Nat
  endColumn : Nat
  deriving DecidableEq

/-- What `getWordUntilPosition` and `getWordAtPosition` report: a word and its columns. -/
structure WordAtPosition where
  word : Str
  startColumn : Nat
  endColumn : Nat

/-- The completion item kinds the provider uses. -/
inductive CompletionItemKind where
  | Module
  | Field
  | Function
  deriving DecidableEq

/-- A completion suggestion. -/
structure CompletionItem where
  label : Str
  kind : CompletionItemKind
  insertText : Str
  range : Range
  deriving DecidableEq

/-- The fixed list of built-in names, `jsonataKeywords`. -/
def jsonataKeywords : List Str :=
  ["$abs", "$append", "$assert", "$average", "$base64decode", "$base64encode",
   "$boolean", "$ceil", "$contains", "$count", "$decodeUrl", "$decodeUrlComponent",
   "$each", "$encodeUrl", "$encodeUrlComponent", "$entries", "$error", "$eval",
   "$exists", "$filter", "$floor", "$formatBase", "$formatDate", "$formatInteger",
   "$fromMillis", "$join", "$keys", "$length", "$lookup", "$lowercase", "$map",
   "$max", "$merge", "$millis", "$min", "now", "$number", "$pad", "$parseDate",
   "$partition", "$power", "$random", "$reduce", "$replace", "$reverse", "$round",
   "$shuffle", "$sift", "$single", "$sort", "$split", "$spread", "$sqrt", "$string",
   "$substring", "$substringAfter", "$substringBefore", "$sum", "$toMillis",
   "$trim", "$type", "$uppercase", "$zip"].map String.toList

/-- The method `String.prototype.lastIndexOf` for one character; `none` stands for `-1`. -/
def lastIndexOf (c : Char) : Str → Option Nat
  | [] => none
  | x :: xs =>
    match lastIndexOf c xs with
    | some i => some (i + 1)
    | none => if x = c then some 0 else none

/-- The character class `[a-zA-Z0-9_]`. -/
def isPathChar (c : Char) : Bool :=
  c.isAlphanum || c == '_'

/-- Recogniser for the rest of `[a-zA-Z0-9_]+(?:\.[a-zA-Z0-9_]+)*`; `inWord` tells
whether at least one character of the current run has been read. -/
def pathTail (inWord : Bool) : Str → Bool
  | [] => inWord
  | c :: cs =>
    if isPathChar c then pathTail true cs
    else if c == '.' && inWord then pathTail false cs
    else false

/-- Whether the whole text matches `[a-zA-Z0-9_]+(?:\.[a-zA-Z0-9_]+)*`. -/
def matchesPath (s : Str) : Bool :=
  pathTail false s

/-- The match of `/[a-zA-Z0-9_]+(?:\.[a-zA-Z0-9_]+)*$/` in a text: the engine tries the
start positions from the left, and a match has to reach the end of the text. -/
def regexPathMatch (s : Str) : Option Str :=
  s.tails.find? matchesPath

/-- The keys `Object.keys` lists for a non-array object, the only values it is called
on: the own enumerable properties; `Object.prototype` has none. -/
def objectKeys : Val → List Str
  | Val.obj fields => fields.map Prod.fst
  | _ => []

/-- The completion provider, `provideCompletionItems`, for the position
`(lineNumber, column)`. The editor supplies `word`, the word that ends at the position,
and `lineContent`, the content of the line. -/
def provideCompletionItems (host : Host) (currentSampleData : Val)
    (lineNumber column : Nat) (word : WordAtPosition) (lineContent : Str) :
    List CompletionItem :=
  let range : Range := ⟨lineNumber, word.startColumn, lineNumber, word.endColumn⟩
  let textUntilPosition := lineContent.take (column - 1)
  let context : Val × Bool :=
    match lastIndexOf '.' textUntilPosition with
    | some lastDotIndex =>
      match regexPathMatch (textUntilPosition.take lastDotIndex) with
      | some path => (getObjectFromPath host currentSampleData (some path), false)
      | none => (currentSampleData, true)
    | none => (currentSampleData, true)
  let parentObject := context.1
  let addKeywords := context.2
  let keySuggestions : List CompletionItem :=
    if truthy parentObject && decide (typeOf parentObject = TypeTag.tObject)
        && !isArray parentObject then
      (objectKeys parentObject).map (fun key =>
        { label := key
          kind := if isObject (getProp host parentObject key) then CompletionItemKind.Module
                  else CompletionItemKind.Field
          insertText := key
          range := range })
    else []
  let keywordSuggestions : List CompletionItem :=
    if addKeywords then
      jsonataKeywords.map (fun keyword =>
        { label := keyword
          kind := CompletionItemKind.Function
          insertText := keyword
          range := range })
    else []
  keySuggestions ++ keywordSuggestions

/-! ## Diagnostics -/

/-- The token a parser failure reports, as the code reads it (`e.token`): nothing, or the
value of the offending token, which is a text, a number (given by its canonical text), a
boolean, `null`, or an object without a property `length` (a regular expression). -/
inductive TokenValue where
  | absent
  | null
  | bool (b : Bool)
  | number (text : Str)
  | text (s : Str)
  | other
  deriving DecidableEq

/-- What the expression parser throws. A failure carries a message, an offset into the
parsed text and the offending token; the offset and the token may be missing, and `code`
is present on a structured syntax error only. -/
structure ParseError where
  message : Str
  position : Option Nat
  token : TokenValue
  code : Option Str

/-- Editor marker severities. -/
inductive MarkerSeverity where
  | Hint
  | Info
  | Warning
  | Error
  deriving DecidableEq

/-- A column computed by JavaScript arithmetic: a number, or `NaN`. -/
inductive Column where
  | finite (n : Int)
  | nan
  deriving DecidableEq

/-- A marker (finding) as handed to the editor. -/
structure Marker where
  message : Str
  severity : MarkerSeverity
  startLineNumber : Nat
  startColumn : Int
  endLineNumber : Nat
  endColumn : Column
  deriving DecidableEq

/-- White space and line terminators, the characters `String.prototype.trim` strips. -/
def isWhiteSpace (c : Char) : Bool :=
  let n := c.toNat
  (9 ≤ n && n ≤ 13) || n == 32 || n == 160 || n == 5760 || (8192 ≤ n && n ≤ 8202)
    || n == 8232 || n == 8233 || n == 8239 || n == 8287 || n == 12288 || n == 65279

/-- The method `String.prototype.trim`. -/
def trim (s : Str) : Str :=
  ((s.dropWhile isWhiteSpace).reverse.dropWhile isWhiteSpace).reverse

/-- Search of `String.prototype.indexOf`, with `i` the index of the text still to scan. -/
def indexOfFrom (sub : Str) : Str → Nat → Int
  | [], i => if sub.isEmpty then Int.ofNat i else -1
  | c :: cs, i => if sub.isPrefixOf (c :: cs) then Int.ofNat i else indexOfFrom sub cs (i + 1)

/-- The method `String.prototype.indexOf`: the first index at which `sub` occurs, `-1`
when none. -/
def indexOf (s sub : Str) : Int :=
  indexOfFrom sub s 0

/-- Truthiness of the reported token, the test `e.token ? ... : ...`: a missing token,
`null`, `false`, the number `0` and the empty text are falsy. -/
def tokenTruthy : TokenValue → Bool
  | TokenValue.absent => false
  | TokenValue.null => false
  | TokenValue.bool b => b
  | TokenValue.number text => !(decide (text = "0".toList) || decide (text = "NaN".toList))
  | TokenValue.text s => !s.isEmpty
  | TokenValue.other => true

/-- The property `length` of a truthy token, `e.token.length`: the length of a text;
any other token has no such property and `none` stands for `undefined`. -/
def tokenLength : TokenValue → Option Nat
  | TokenValue.text s => some s.length
  | _ => none

/-- The end column `startColumn + (e.token ? e.token.length : 1)`; adding `undefined` to
a number gives `NaN`. -/
def endColumnOf (startColumn : Int) (token : TokenValue) : Column :=
  if tokenTruthy token then
    match tokenLength token with
    | some n => Column.finite (startColumn + Int.ofNat n)
    | none => Column.nan
  else Column.finite (startColumn + 1)

/-- A text document of the editor: its language, its lines, the markers published for
it under the owner `jsonata-json`, whether the content listener installed by
`onDidCreateModel` is attached, and whether the document has been disposed. -/
structure TextModel where
  id : Nat
  languageId : Str
  lines : List Str
  markers : List Marker
  listening : Bool
  disposed : Bool

/-- Body of the `forEach` callback of `validate`, for line `line` of index `i`. -/
def validateLine (jsonata : Str → Option ParseError) (markers : List Marker)
    (line : Str) (i : Nat) : List Marker :=
  let trimmedLine := trim line
  if trimmedLine.isEmpty || "/*".toList.isPrefixOf trimmedLine then markers
  else
    match jsonata trimmedLine with
    | none => markers
    | some e =>
      let startColumn : Int := indexOf line trimmedLine + Int.ofNat (e.position.getD 0) + 1
      let endColumn : Column := endColumnOf startColumn e.token
      markers ++
        [{ message := e.message
           severity := MarkerSeverity.Error
           startLineNumber := i + 1
           startColumn := startColumn
           endLineNumber := i + 1
           endColumn := endColumn }]

/-- The markers `validate` collects for the lines of a document. -/
def collectMarkers (jsonata : Str → Option ParseError) (lines : List Str) : List Marker :=
  lines.enum.foldl (fun markers il => validateLine jsonata markers il.2 il.1) []

/-- The function `validate(model, monacoNs, sampleData)`: parses every line and publishes
the markers, which replace the markers published before. `jsonata` is the parser: `none`
when it accepts the text, the thrown value otherwise. -/
def validate (jsonata : Str → Option ParseError) (model : TextModel) (_sampleData : Val) :
    TextModel :=
  { model with markers := collectMarkers jsonata model.lines }

/-- Number of leading white-space characters of a line. -/
def leadingWhiteSpace (line : Str) : Nat :=
  (line.takeWhile isWhiteSpace).length

/-- Whether a line is one `validate` has parsed and the parser rejects. -/
def rejected (jsonata : Str → Option ParseError) (line : Str) : Bool :=
  !(trim line).isEmpty && !("/*".toList.isPrefixOf (trim line)) && (jsonata (trim line)).isSome

/-- A toy parser used to run the model: it rejects a text with more `(` than `)`, at the
end of the text, on the token `(end)`. -/
def parenParser (s : Str) : Option ParseError :=
  if s.count '(' ≤ s.count ')' then none
  else some
    { message := "Expected a closing parenthesis before end of expression".toList
      position := some s.length
      token := TokenValue.text "(end)".toList
      code := some "S0203".toList }

/-- A parser that fails on every text the way the expression parser fails on `1 2`: a
syntax error at offset 3 whose token is the number 2. -/
def numberTokenParser (_s : Str) : Option ParseError :=
  some
    { message := "Syntax error: 2".toList
      position := some 3
      token := TokenValue.number "2".toList
      code := some "S0201".toList }

/-- A parser that fails on every text with a failure that is not a structured syntax
error: a message only, no code, no offset, no token. -/
def crashParser (_s : Str) : Option ParseError :=
  some
    { message := "Maximum call stack size exceeded".toList
      position := none
      token := TokenValue.absent
      code := none }

/-- The finding the loop of `validate` pushes for line `line` of index `i`: none unless
the line is rejected; otherwise an error on line `i + 1` that starts at the column of the
first character that is not white space plus the reported offset. -/
def lineFinding (jsonata : Str → Option ParseError) (i : Nat) (line : Str) : Option Marker :=
  if rejected jsonata line then
    (jsonata (trim line)).map (fun e =>
      let start : Int := Int.ofNat (leadingWhiteSpace line) + Int.ofNat (e.position.getD 0) + 1
      { message := e.message
        severity := MarkerSeverity.Error
        startLineNumber := i + 1
        startColumn := start
        endLineNumber := i + 1
        endColumn := endColumnOf start e.token })
  else none

/-- The width of a finding in the words of the specification: the length of the reported
token text when it is not empty, one column otherwise. -/
def reportedWidth (e : ParseError) : Nat :=
  match e.token with
  | TokenValue.text t => if t = [] then 1 else t.length
  | _ => 1

/-- Whether the reported token has a width: it is a text, or it is missing or falsy and
counts for one column. -/
def tokenHasWidth (token : TokenValue) : Bool :=
  !tokenTruthy token || (tokenLength token).isSome

/-! ## Hover provider -/

/-- The text `typeof` yields. -/
def typeName : TypeTag → Str
  | TypeTag.tUndefined => "undefined".toList
  | TypeTag.tObject => "object".toList
  | TypeTag.tBool => "boolean".toList
  | TypeTag.tNumber => "number".toList
  | TypeTag.tString => "string".toList
  | TypeTag.tFunction => "function".toList

/-- The double quote character. -/
def quoteChar : Char := Char.ofNat 34

/-- The backslash character. -/
def backslashChar : Char := Char.ofNat 92

/-- One character of a string, as `JSON.stringify` writes it inside quotes. -/
def quoteJSONChar (c : Char) : Str :=
  if c = quoteChar then [backslashChar, quoteChar]
  else if c = backslashChar then [backslashChar, backslashChar]
  else if c.toNat = 8 then [backslashChar, 'b']
  else if c.toNat = 9 then [backslashChar, 't']
  else if c.toNat = 10 then [backslashChar, 'n']
  else if c.toNat = 12 then [backslashChar, 'f']
  else if c.toNat = 13 then [backslashChar, 'r']
  else if c.toNat < 32 then
    [backslashChar, 'u', '0', '0', Nat.digitChar (c.toNat / 16), Nat.digitChar (c.toNat % 16)]
  else [c]

/-- A string as `JSON.stringify` writes it: quoted, with escapes. -/
def quoteJSONString (s : Str) : Str :=
  quoteChar :: (s.flatMap quoteJSONChar ++ [quoteChar])

/-- Concatenation of texts with a separator (`Array.prototype.join`). -/
def joinWith (sep : Str) : List Str → Str
  | [] => []
  | [x] => x
  | x :: y :: rest => x ++ sep ++ joinWith sep (y :: rest)

/-- The JSON text of a number: its canonical text, and `null` for a number that is not
finite. -/
def numberJSON (text : Str) : Str :=
  if text = "NaN".toList ∨ text = "Infinity".toList ∨ text = "-Infinity".toList then
    "null".toList
  else text

mutual
/-- The text of `JSON.stringify(value, null, 2)` below the indentation `indent`; `none`
is the `undefined` it yields for a value that has no JSON text (`undefined`, a function).
The prototypes have no enumerable property and print as an empty object and an empty
array. -/
def stringifyAt (indent : Str) : Val → Option Str
  | Val.undefined => none
  | Val.null => some "null".toList
  | Val.bool b => some (if b then "true".toList else "false".toList)
  | Val.num text => some (numberJSON text)
  | Val.str s => some (quoteJSONString s)
  | Val.arr items =>
    match stringifyItems (indent ++ "  ".toList) items with
    | [] => some "[]".toList
    | parts =>
      some ("[\n".toList ++ (indent ++ "  ".toList)
        ++ joinWith (",\n".toList ++ (indent ++ "  ".toList)) parts
        ++ "\n".toList ++ indent ++ "]".toList)
  | Val.obj fields =>
    match stringifyFields (indent ++ "  ".toList) fields with
    | [] => some "\x7b\x7d".toList
    | parts =>
      some ("\x7b\n".toList ++ (indent ++ "  ".toList)
        ++ joinWith (",\n".toList ++ (indent ++ "  ".toList)) parts
        ++ "\n".toList ++ indent ++ "\x7d".toList)
  | Val.proto Proto.object => some "\x7b\x7d".toList
  | Val.proto Proto.array => some "[]".toList
  | Val.builtin _ _ => none
/-- The texts of the elements of an array; an element without JSON text is written `null`. -/
def stringifyItems (indent : Str) : List Val → List Str
  | [] => []
  | v :: vs => ((stringifyAt indent v).getD "null".toList) :: stringifyItems indent vs
/-- The texts of the properties of an object; a property without JSON text is left out. -/
def stringifyFields (indent : Str) : List (Str × Val) → List Str
  | [] => []
  | (k, v) :: rest =>
    match stringifyAt indent v with
    | none => stringifyFields indent rest
    | some text => (quoteJSONString k ++ ": ".toList ++ text) :: stringifyFields indent rest
end

/-- The text of `JSON.stringify(value, null, 2)`, concatenated into a text as the hover
does. -/
def jsonStringify (value : Val) : Str :=
  (stringifyAt [] value).getD "undefined".toList

/-- The text of `value.toString()` on a value that is neither `undefined` nor of object
type, the only values the hover provider calls it on: a boolean, a number, a string, or a
built-in function, whose text the engine gives. -/
def valueToString (host : Host) : Val → Str
  | Val.bool b => if b then "true".toList else "false".toList
  | Val.num text => text
  | Val.str s => s
  | Val.builtin p name => host.functionText p name
  | _ => []

/-- Whether a value is `undefined`. -/
def isUndefined : Val → Bool
  | Val.undefined => true
  | _ => false

/-- A hover result: the range and the two content blocks. -/
structure Hover where
  range : Range
  contents : List Str
  deriving DecidableEq

/-- The two content blocks of a hover: the path in bold, and a fenced block labelled with
the type of the value that holds the text of the value. -/
def hoverContents (host : Host) (variablePath : Str) (value : Val) : List Str :=
  let valueString :=
    if typeOf value = TypeTag.tObject then jsonStringify value else valueToString host value
  ["**".toList ++ variablePath ++ "**".toList,
   "```".toList ++ typeName (typeOf value) ++ "\n".toList ++ valueString ++ "\n```".toList]

/-- The hover provider of `src/jsonata-mode/src/index.ts`, `provideHover`; `word` is what
the editor reports as the word at the position. -/
def provideHover (host : Host) (currentSampleData : Val) (lineNumber : Nat)
    (word : Option WordAtPosition) : Option Hover :=
  match word with
  | none => none
  | some w =>
    let range : Range := ⟨lineNumber, w.startColumn, lineNumber, w.endColumn⟩
    let variablePath := w.word
    let value := getObjectFromPath host currentSampleData (some variablePath)
    if !isUndefined value then
      some { range := range, contents := hoverContents host variablePath value }
    else none

/-- The character class `[a-zA-Z_]`. -/
def isTokenStart (c : Char) : Bool :=
  c.isAlpha || c == '_'

/-- The character class `[\w\.]`. -/
def isTokenChar (c : Char) : Bool :=
  c.isAlphanum || c == '_' || c == '.'

/-- Successive matches of `/([a-zA-Z_][\w\.]*)/g` in a text, with their indices. `idx` is
the index of the next character, `cur` the match being read (index and reversed text). -/
def scanTokens (idx : Nat) (cur : Option (Nat × Str)) : Str → List (Nat × Str)
  | [] =>
    match cur with
    | some (i, t) => [(i, t.reverse)]
    | none => []
  | c :: cs =>
    match cur with
    | some (i, t) =>
      if isTokenChar c then scanTokens (idx + 1) (some (i, c :: t)) cs
      else (i, t.reverse) :: scanTokens (idx + 1) none cs
    | none =>
      if isTokenStart c then scanTokens (idx + 1) (some (idx, [c])) cs
      else scanTokens (idx + 1) none cs

/-- What the loop body of the hover provider of `src/dist/index.js` returns for one match. -/
def hoverForMatch (host : Host) (currentSampleData : Val) (lineNumber column : Nat)
    (m : Nat × Str) : Option Hover :=
  let variablePath := m.2
  let startIndex := m.1 + 1
  let endIndex := startIndex + variablePath.length
  if startIndex ≤ column && column ≤ endIndex then
    let value := getObjectFromPath host currentSampleData (some variablePath)
    if !isUndefined value then
      some { range := ⟨lineNumber, startIndex, lineNumber, endIndex⟩
             contents := hoverContents host variablePath value }
    else none
  else none

/-- The hover provider of `src/dist/index.js`: it scans the line for path-shaped tokens
and answers for the first one under the cursor that resolves. -/
def provideHoverScan (host : Host) (currentSampleData : Val) (lineNumber column : Nat)
    (lineContent : Str) : Option Hover :=
  (scanTokens 0 none lineContent).findSome?
    (hoverForMatch host currentSampleData lineNumber column)

/-- The matches of the pattern `[a-zA-Z_][\w\.]*` in a text that starts at index `idx`, as
a regular-expression search reports them from left to right: a character that cannot
start a match is passed over; at a character that can, the match is that character
followed by the longest run of characters of the class `[\w\.]`, and the search goes on
after the match. -/
inductive PathTokens : Nat → Str → List (Nat × Str) → Prop where
  | done (idx : Nat) : PathTokens idx [] []
  | skip (idx : Nat) (c : Char) (cs : Str) (out : List (Nat × Str)) :
      isTokenStart c = false → PathTokens (idx + 1) cs out → PathTokens idx (c :: cs) out
  | tok (idx : Nat) (c : Char) (cs : Str) (out : List (Nat × Str)) :
      isTokenStart c = true →
      PathTokens (idx + 1 + (cs.takeWhile isTokenChar).length) (cs.dropWhile isTokenChar) out →
      PathTokens idx (c :: cs) ((idx, c :: cs.takeWhile isTokenChar) :: out)

/-- The preview text the specification describes: the 2-space pretty-printed JSON for an
object or an array, the plain string form for a primitive; for a built-in function, on
which the specification is silent, the text the engine gives. -/
def specPreview (host : Host) : Val → Str
  | Val.obj fields => jsonStringify (Val.obj fields)
  | Val.arr items => jsonStringify (Val.arr items)
  | Val.proto p => jsonStringify (Val.proto p)
  | Val.null => "null".toList
  | Val.bool b => if b then "true".toList else "false".toList
  | Val.num text => text
  | Val.str s => s
  | Val.builtin p name => host.functionText p name
  | Val.undefined => []

/-- The content blocks the specification describes: the token in bold, then a fenced block
labelled with the type of the value that contains the preview text. -/
def specContents (host : Host) (token : Str) (value : Val) : List Str :=
  ["**".toList ++ token ++ "**".toList,
   "```".toList ++ typeName (typeOf value) ++ "\n".toList ++ specPreview host value
     ++ "\n```".toList]

/-- The 2-space pretty-printed JSON text of the members of a non-empty array or object at
the indentation `indent`, between the brackets `open` and `close`: one member per line,
two spaces deeper than the brackets, separated by commas. -/
def specPretty (indent : Str) (opening closing : Char) (members : List Str) : Str :=
  [opening] ++ "\n".toList ++ indent ++ "  ".toList
    ++ joinWith (",\n".toList ++ indent ++ "  ".toList) members
    ++ "\n".toList ++ indent ++ [closing]

/-! ## Registration, sample store and document lifecycle -/

/-- The language id the mode registers. -/
def languageId : Str := "jsonata-json".toList

/-- State of a registration: the sample document held by the closure variable
`currentSampleData`, and the documents the editor has created; `getModels()` lists those
that are not disposed. -/
structure State where
  currentSampleData : Val
  models : List TextModel

/-- The function `setData(data)`: stores the sample document (the first element when an
array is given) and validates every document of `getModels()` that has the language. -/
def setData (host : Host) (jsonata : Str → Option ParseError) (s : State) (data : Val) :
    State :=
  let currentSampleData := if isArray data then getProp host data "0".toList else data
  { currentSampleData := currentSampleData
    models := s.models.map (fun model =>
      if !model.disposed && decide (model.languageId = languageId) then
        validate jsonata model currentSampleData
      else model) }

/-- The function `registerJSONataLanguage(monacoNs, initialSampleData)`, on an editor that
holds the documents `models`: initialises the sample store and calls `setData`. -/
def registerJSONataLanguage (host : Host) (jsonata : Str → Option ParseError)
    (models : List TextModel) (initialSampleData : Val) : State :=
  setData host jsonata
    { currentSampleData :=
        if isArray initialSampleData then getProp host initialSampleData "0".toList
        else initialSampleData
      models := models }
    initialSampleData

/-- The method `update(newSampleData)` of the handle that registration returns. -/
def update (host : Host) (jsonata : Str → Option ParseError) (s : State)
    (newSampleData : Val) : State :=
  setData host jsonata s newSampleData

/-- What can happen after registration: the editor creates a document, changes the content
or the language of one, disposes one, or the caller updates the sample document. -/
inductive Event where
  | createModel (id : Nat) (language : Str) (lines : List Str)
  | changeContent (id : Nat) (lines : List Str)
  | changeLanguage (id : Nat) (language : Str)
  | disposeModel (id : Nat)
  | update (newSampleData : Val)

/-- The handler the registration installs with `model.onWillDispose`:
`listener.dispose()` detaches the content listener. -/
def releaseListener (model : TextModel) : TextModel :=
  { model with listening := false }

/-- Effect of one event, together with the documents on which the event runs `validate`
(their ids, in order).
On creation the handler of `onDidCreateModel` runs: for a document of the language it
attaches the content listener, installs the disposal handler and validates once.
A content change runs the content listener of the document when it is attached.
The registration installs no handler for a change of language.
On disposal the disposal handler runs, then the editor marks the document disposed.
An update runs `setData`. -/
def stepLog (host : Host) (jsonata : Str → Option ParseError) (s : State) :
    Event → State × List Nat
  | Event.createModel id language lines =>
    if language = languageId then
      ({ s with models := s.models ++
          [validate jsonata ⟨id, language, lines, [], true, false⟩ s.currentSampleData] },
       [id])
    else ({ s with models := s.models ++ [⟨id, language, lines, [], false, false⟩] }, [])
  | Event.changeContent id lines =>
    ({ s with models := s.models.map (fun model =>
        if model.id = id then
          if model.listening then
            validate jsonata { model with lines := lines } s.currentSampleData
          else { model with lines := lines }
        else model) },
     (s.models.filter (fun model => model.id == id && model.listening)).map TextModel.id)
  | Event.changeLanguage id language =>
    ({ s with models := s.models.map (fun model =>
        if model.id = id then { model with languageId := language } else model) }, [])
  | Event.disposeModel id =>
    ({ s with models := s.models.map (fun model =>
        if model.id = id then { releaseListener model with disposed := true } else model) },
     [])
  | Event.update newSampleData =>
    (update host jsonata s newSampleData,
     (s.models.filter (fun model =>
        !model.disposed && decide (model.languageId = languageId))).map TextModel.id)

/-- Effect of one event on the state. -/
def step (host : Host) (jsonata : Str → Option ParseError) (s : State) (e : Event) : State :=
  (stepLog host jsonata s e).1

/-- The state after a sequence of events. -/
def run (host : Host) (jsonata : Str → Option ParseError) (s : State)
    (events : List Event) : State :=
  events.foldl (step host jsonata) s

/-- Whether an event is an update of the sample document. -/
def Event.isUpdate : Event → Bool
  | Event.update _ => true
  | _ => false

/-- A completion request served in a state: the provider reads `currentSampleData`. -/
def completionRequest (host : Host) (s : State) (lineNumber column : Nat)
    (word : WordAtPosition) (lineContent : Str) : List CompletionItem :=
  provideCompletionItems host s.currentSampleData lineNumber column word lineContent

/-- A hover request served in a state by the provider that scans the line. -/
def hoverScanRequest (host : Host) (s : State) (lineNumber column : Nat)
    (lineContent : Str) : Option Hover :=
  provideHoverScan host s.currentSampleData lineNumber column lineContent

/-- A hover request served in a state: the provider reads `currentSampleData`. -/
def hoverRequest (host : Host) (s : State) (lineNumber : Nat)
    (word : Option WordAtPosition) : Option Hover :=
  provideHover host s.currentSampleData lineNumber word

/-- The active sample document the specification describes for a supplied value `d`:
`d[0]` when `d` is an array (`undefined` when it has no element), `d` itself otherwise. -/
def specActive : Val → Val
  | Val.arr [] => Val.undefined
  | Val.arr (first :: _) => first
  | Val.proto Proto.array => Val.undefined
  | d => d

/-- Sample document `[{"a": 5}, {"b": 6}]`. -/
def sampleList : Val :=
  Val.arr [Val.obj [("a".toList, Val.num "5".toList)],
    Val.obj [("b".toList, Val.num "6".toList)]]

/-- An event that leaves the document `id` open: it neither disposes it nor creates a
document with the same id. -/
def Event.keeps (id : Nat) : Event → Bool
  | Event.disposeModel j => j != id
  | Event.createModel j _ _ => j != id
  | _ => true

/-- The document `id` is open once in a state, with the content listener attached. -/
def Tracked (s : State) (id : Nat) : Prop :=
  (s.models.filter (fun model => model.id == id)).map TextModel.listening = [true]

/-! ## Specification-side notions for the later claims -/

/-- A candidate path in the words of the specification: one or more non-empty runs of
`[A-Za-z0-9_]` joined by single `.` characters. -/
def specIsPath (s : Str) : Bool :=
  (splitOn '.' s).all (fun seg => !seg.isEmpty && seg.all isPathChar)

/-! ## Path resolver: lemmas -/

theorem pathStep_obj (host : Host) (fields : List (Str × Val)) (key : Str) :
    pathStep host (Val.obj fields) key = getProp host (Val.obj fields) key := by
  simp [pathStep, truthy, typeOf]

theorem pathStep_arr (host : Host) (items : List Val) (key : Str) :
    pathStep host (Val.arr items) key = getProp host (Val.arr items) key := by
  simp [pathStep, truthy, typeOf]

theorem pathStep_of_notObjectKind (host : Host) (v : Val) (key : Str)
    (h : notObjectKind v = true) : pathStep host v key = Val.undefined := by
  cases v <;> simp_all [pathStep, truthy, typeOf, getProp, notObjectKind]

theorem foldl_pathStep_undefined (host : Host) (segs : List Str) :
    segs.foldl (pathStep host) Val.undefined = Val.undefined := by
  induction segs with
  | nil => rfl
  | cons k rest ih => simpa [List.foldl, pathStep, truthy] using ih

theorem foldl_pathStep_of_notObjectKind (host : Host) (v : Val) (segs : List Str)
    (hs : segs ≠ []) (h : notObjectKind v = true) :
    segs.foldl (pathStep host) v = Val.undefined := by
  cases segs with
  | nil => exact absurd rfl hs
  | cons k rest =>
    rw [List.foldl_cons, pathStep_of_notObjectKind host v k h]
    exact foldl_pathStep_undefined host rest

theorem ownProperty_of_find (key : Str) (fields : List (Str × Val)) (e : Str × Val)
    (h : fields.find? (fun e => decide (e.1 = key)) = some e) :
    ownProperty key fields = e.2 := by
  induction fields with
  | nil => simp at h
  | cons hd tl ih =>
    obtain ⟨k, v⟩ := hd
    by_cases hk : k = key
    · simp [List.find?, hk] at h
      simp [ownProperty, hk, ← h]
    · simp [List.find?, hk] at h
      simp [ownProperty, hk, ih h]

theorem hasOwn_of_find (key : Str) (fields : List (Str × Val)) (e : Str × Val)
    (h : fields.find? (fun e => decide (e.1 = key)) = some e) :
    hasOwn key fields = true := by
  unfold hasOwn
  rw [List.any_eq_true]
  have hp := List.find?_some h
  exact ⟨e, List.mem_of_find?_eq_some h, hp⟩

theorem hasOwn_of_missing (key : Str) (fields : List (Str × Val))
    (h : ∀ e ∈ fields, e.1 ≠ key) : hasOwn key fields = false := by
  unfold hasOwn
  rw [List.any_eq_false]
  intro e he
  simpa using h e he

theorem hasOwn_of_mem (kv : Str × Val) (fields : List (Str × Val)) (h : kv ∈ fields) :
    hasOwn kv.1 fields = true := by
  unfold hasOwn
  rw [List.any_eq_true]
  exact ⟨kv, h, by simp⟩

theorem getProp_obj_of_find (host : Host) (key : Str) (fields : List (Str × Val))
    (e : Str × Val) (h : fields.find? (fun e => decide (e.1 = key)) = some e) :
    getProp host (Val.obj fields) key = e.2 := by
  simp only [getProp, hasOwn_of_find key fields e h, if_true, ownProperty_of_find key fields e h]

theorem objectProtoProperty_of_not_inherited (host : Host) (parent : Val) (key : Str)
    (h : ¬ inheritedName host key) : objectProtoProperty host parent key = Val.undefined := by
  unfold inheritedName at h
  unfold objectProtoProperty
  by_cases h1 : key = "__proto__".toList
  · exact absurd (Or.inl h1) h
  · by_cases h2 : key ∈ host.objectMembers
    · exact absurd (Or.inr h2) h
    · rw [if_neg h1, if_neg h2]

theorem getProp_obj_of_missing (host : Host) (key : Str) (fields : List (Str × Val))
    (h : ∀ e ∈ fields, e.1 ≠ key) (hn : ¬ inheritedName host key) :
    getProp host (Val.obj fields) key = Val.undefined := by
  simp only [getProp, hasOwn_of_missing key fields h, Bool.false_eq_true, if_false,
    objectProtoProperty_of_not_inherited host _ key hn]

theorem getObjectFromPath_nonempty (host : Host) (D : Val) (p : Str) (hp : p ≠ []) :
    getObjectFromPath host D (some p) = (splitOn '.' p).foldl (pathStep host) D := by
  cases p with
  | nil => exact absurd rfl hp
  | cons c cs => simp [getObjectFromPath]

theorem foldl_pathStep_specLeaf (host : Host) (segs : List Str) :
    ∀ (D v : Val), specLeaf D segs = some v → segs.foldl (pathStep host) D = v := by
  induction segs with
  | nil => intro D v h; cases D <;> simp [specLeaf] at h
  | cons k rest ih =>
    intro D v h
    cases D with
    | obj fields =>
      cases rest with
      | nil =>
        simp only [specLeaf, Option.map_eq_some'] at h
        obtain ⟨e, he, hv⟩ := h
        simp [pathStep_obj, getProp_obj_of_find host k fields e he, hv]
      | cons k2 rest2 =>
        simp only [specLeaf] at h
        split at h
        · next inner hfind =>
          rw [List.foldl_cons, pathStep_obj, getProp_obj_of_find host k fields _ hfind]
          exact ih (Val.obj inner) v h
        · simp at h
    | _ => simp [specLeaf] at h

theorem stops_notObjectKind (host : Host) (D : Val) (pre : List Str)
    (h : SpecStops host D pre) : notObjectKind (pre.foldl (pathStep host) D) = true := by
  rcases h with ⟨before, k, fields, hpre, hobj, hmiss, hinh⟩ | h
  · subst hpre
    rw [List.foldl_append, hobj]
    simp [pathStep_obj, getProp_obj_of_missing host k fields hmiss hinh, notObjectKind]
  · exact h

theorem pathStepRaising_eq (host : Host) (v : Val) (key : Str) :
    pathStepRaising host v key = Except.ok (pathStep host v key) := by
  cases v <;> simp [pathStepRaising, pathStep, propertyAccess, truthy, typeOf]

theorem foldRaising_eq (host : Host) (segs : List Str) :
    ∀ v, foldRaising host v segs = Except.ok (segs.foldl (pathStep host) v) := by
  induction segs with
  | nil => intro v; rfl
  | cons k rest ih =>
    intro v
    simp only [foldRaising, pathStepRaising_eq, List.foldl_cons]
    exact ih _

theorem getObjectFromPathRaising_eq (host : Host) (D : Val) (path : Option Str) :
    getObjectFromPathRaising host D path = Except.ok (getObjectFromPath host D path) := by
  cases path with
  | none => rfl
  | some p =>
    by_cases hp : p.isEmpty = true
    · simp [getObjectFromPathRaising, getObjectFromPath, hp]
    · simp only [getObjectFromPathRaising, getObjectFromPath, hp, Bool.false_eq_true, if_false]
      exact foldRaising_eq host _ D

/-! ## Path resolver: the claims -/

/-- C1: when every segment of a non-empty dotted path but the last exists and holds an
object, and the last segment exists in the last of those objects, `getObjectFromPath`
returns exactly the value stored under the last segment. -/
theorem getObjectFromPath_leaf (host : Host) (D : Val) (p : Str) (v : Val) (hp : p ≠ [])
    (h : specLeaf D (splitOn '.' p) = some v) :
    getObjectFromPath host D (some p) = v := by
  rw [getObjectFromPath_nonempty host D p hp]
  exact foldl_pathStep_specLeaf host _ D v h

theorem getObjectFromPath_leaf_witness :
    "a.c".toList ≠ [] ∧
    specLeaf sampleNested (splitOn '.' "a.c".toList) = some (Val.num "2".toList) ∧
    getObjectFromPath standardHost sampleNested (some "a.c".toList) = Val.num "2".toList :=
  ⟨by decide, by rfl,
    getObjectFromPath_leaf standardHost sampleNested "a.c".toList (Val.num "2".toList)
      (by decide) (by rfl)⟩

/-- C2, as stated, fails: the key `__proto__` is missing from the own keys of `{"a": 5}`,
yet the path `__proto__.__proto__` resolves to `null` and `__proto__.constructor` to a
built-in function, because a missing key is read from the built-in prototype. -/
theorem getObjectFromPath_inherited_counterexample :
    hasOwn "__proto__".toList [("a".toList, Val.num "5".toList)] = false ∧
    getObjectFromPath standardHost sampleNumber (some "__proto__.__proto__".toList)
      = Val.null ∧
    getObjectFromPath standardHost sampleNumber (some "__proto__.constructor".toList)
      = Val.builtin Proto.object "constructor".toList ∧
    getObjectFromPath standardHost sampleNumber (some "__proto__.__proto__".toList)
      ≠ Val.undefined := by
  refine ⟨by rfl, by rfl, by rfl, ?_⟩
  have h : getObjectFromPath standardHost sampleNumber (some "__proto__.__proto__".toList)
      = Val.null := by rfl
  rw [h]
  exact fun hc => Val.noConfusion hc

/-- C2, amended: when the root, or the value reached after a proper part `pre` of the
segments of a non-empty path, is `undefined`, `null` or not of object type, then
`getObjectFromPath` returns `undefined` whatever segments follow, and no property access
raises. A key that is missing from the own keys of the object reached leads to such a
value when the key is not a name the object inherits from its built-in prototype. -/
theorem getObjectFromPath_stops (host : Host) (D : Val) (p : Str) (pre rest : List Str)
    (hp : p ≠ []) (hs : splitOn '.' p = pre ++ rest) (hr : rest ≠ [])
    (h : SpecStops host D pre) :
    getObjectFromPath host D (some p) = Val.undefined ∧
    getObjectFromPathRaising host D (some p) = Except.ok Val.undefined := by
  have hmain : getObjectFromPath host D (some p) = Val.undefined := by
    rw [getObjectFromPath_nonempty host D p hp, hs, List.foldl_append]
    exact foldl_pathStep_of_notObjectKind host _ rest hr (stops_notObjectKind host D pre h)
  exact ⟨hmain, by rw [getObjectFromPathRaising_eq, hmain]⟩

theorem getObjectFromPath_stops_witness :
    getObjectFromPath standardHost sampleNumber (some "x.b.c".toList) = Val.undefined ∧
    getObjectFromPathRaising standardHost sampleNumber (some "x.b.c".toList)
      = Except.ok Val.undefined :=
  getObjectFromPath_stops standardHost sampleNumber "x.b.c".toList ["x".toList]
    ["b".toList, "c".toList] (by decide) (by rfl) (by simp)
    (Or.inl ⟨[], "x".toList, [("a".toList, Val.num "5".toList)], by rfl, by rfl, by decide,
      by unfold inheritedName; decide⟩)

/-- C3: with the empty path, and with a missing path, `getObjectFromPath` returns the
document itself, whatever its kind. -/
theorem getObjectFromPath_identity (host : Host) (D : Val) :
    getObjectFromPath host D (some []) = D ∧ getObjectFromPath host D none = D :=
  ⟨rfl, rfl⟩

/-- C4, as stated, fails: in `{"a": [10, 20]}` the path `a.0` selects the first element
of the array and `a.length` its length; neither is `undefined`. -/
theorem getObjectFromPath_array_counterexample :
    getObjectFromPath standardHost sampleWithArray (some "a.0".toList)
      = Val.num "10".toList ∧
    getObjectFromPath standardHost sampleWithArray (some "a.length".toList)
      = Val.num "2".toList ∧
    getObjectFromPath standardHost sampleWithArray (some "a.0".toList) ≠ Val.undefined := by
  refine ⟨by rfl, by rfl, ?_⟩
  have h : getObjectFromPath standardHost sampleWithArray (some "a.0".toList)
      = Val.num "10".toList := by rfl
  rw [h]
  exact fun hc => Val.noConfusion hc

/-- C4, amended: an array reached before the segment `k` is read like any object. The
segment `length` selects the length and a canonical decimal index below the length
selects that element; a segment that is neither is read from the built-in prototypes,
which gives a built-in function for a name `Array.prototype` defines, `Array.prototype`
itself for `__proto__`, and `undefined` for a name that no prototype defines. The
remaining segments are then resolved from the selected value. -/
theorem getObjectFromPath_array (host : Host) (D : Val) (p : Str) (pre rest : List Str)
    (k : Str) (items : List Val) (hp : p ≠ []) (hs : splitOn '.' p = pre ++ k :: rest)
    (ha : pre.foldl (pathStep host) D = Val.arr items) :
    (k = "length".toList →
      getObjectFromPath host D (some p)
        = rest.foldl (pathStep host) (Val.ofNat items.length)) ∧
    (∀ i : Nat, arrayIndex k = some i → i < items.length →
      getObjectFromPath host D (some p)
        = rest.foldl (pathStep host) (items.getD i Val.undefined)) ∧
    (k ≠ "length".toList → (∀ i : Nat, arrayIndex k = some i → items.length ≤ i) →
      (k ∈ host.arrayMembers →
        getObjectFromPath host D (some p)
          = rest.foldl (pathStep host) (Val.builtin Proto.array k)) ∧
      (k ∉ host.arrayMembers → k = "__proto__".toList →
        getObjectFromPath host D (some p)
          = rest.foldl (pathStep host) (Val.proto Proto.array)) ∧
      (k ∉ host.arrayMembers → ¬ inheritedName host k →
        getObjectFromPath host D (some p) = Val.undefined)) := by
  have hgen : getObjectFromPath host D (some p)
      = rest.foldl (pathStep host) (getProp host (Val.arr items) k) := by
    rw [getObjectFromPath_nonempty host D p hp, hs, List.foldl_append, ha, List.foldl_cons,
      pathStep_arr]
  refine ⟨?_, ?_, ?_⟩
  · intro hk
    rw [hgen]; simp [getProp, arrayOwn, hk]
  · intro i hi hlt
    have hne : k ≠ "length".toList := by
      intro hk; rw [hk] at hi; simp [arrayIndex] at hi
    rw [hgen]
    simp only [getProp, arrayOwn, hne, if_false, hi]
    simp [List.getD, List.getElem?_eq_getElem hlt]
  · intro hne hout
    have hown : arrayOwn items k = none := by
      simp only [arrayOwn, hne, if_false]
      cases hidx : arrayIndex k with
      | none => rfl
      | some i => exact List.getElem?_eq_none (hout i hidx)
    have hprop : getProp host (Val.arr items) k
        = arrayProtoProperty host (Val.proto Proto.array) k := by
      simp only [getProp, hown]
    rw [hgen, hprop]
    refine ⟨?_, ?_, ?_⟩
    · intro hmem
      simp only [arrayProtoProperty, hmem, if_true]
    · intro hmem hk
      subst hk
      simp only [arrayProtoProperty, hmem, if_false, objectProtoProperty, if_true]
    · intro hmem hinh
      simp only [arrayProtoProperty, hmem, if_false,
        objectProtoProperty_of_not_inherited host _ k hinh]
      exact foldl_pathStep_undefined host rest

theorem getObjectFromPath_array_witness :
    getObjectFromPath standardHost (Val.arr [Val.num "7".toList, Val.num "8".toList])
      (some "1".toList) = Val.num "8".toList :=
  ((getObjectFromPath_array standardHost (Val.arr [Val.num "7".toList, Val.num "8".toList])
    "1".toList [] [] "1".toList [Val.num "7".toList, Val.num "8".toList]
    (by decide) (by rfl) (by rfl)).2.1 1 (by rfl) (by decide))

/-! ## Diagnostics: lemmas -/

theorem trimEnd_isPrefix (s : Str) :
    ((s.reverse.dropWhile isWhiteSpace).reverse) <+: s := by
  have h := List.dropWhile_suffix isWhiteSpace (l := s.reverse)
  have h2 := List.reverse_prefix.mpr h
  simpa using h2

theorem trim_cons_whiteSpace (c : Char) (cs : Str) (hc : isWhiteSpace c = true) :
    trim (c :: cs) = trim cs := by
  simp [trim, List.dropWhile, hc]

theorem trim_isPrefix_of_head (x : Char) (xs : Str) (hx : ¬ isWhiteSpace x = true) :
    trim (x :: xs) <+: (x :: xs) := by
  have : trim (x :: xs) = (((x :: xs).reverse.dropWhile isWhiteSpace).reverse) := by
    simp [trim, List.dropWhile, hx]
  rw [this]; exact trimEnd_isPrefix _

theorem trim_head_not_whiteSpace (s : Str) (c : Char) (t : Str) (h : trim s = c :: t) :
    isWhiteSpace c = false := by
  induction s with
  | nil => simp [trim] at h
  | cons x xs ih =>
    by_cases hx : isWhiteSpace x = true
    · rw [trim_cons_whiteSpace x xs hx] at h
      exact ih h
    · have hpre := trim_isPrefix_of_head x xs hx
      rw [h] at hpre
      obtain ⟨r, hr⟩ := hpre
      simp at hr
      rw [hr.1]; simpa using hx

theorem indexOfFrom_trim (line : Str) (i : Nat) (h : trim line ≠ []) :
    indexOfFrom (trim line) line i = Int.ofNat (i + leadingWhiteSpace line) := by
  induction line generalizing i with
  | nil => simp [trim] at h
  | cons x xs ih =>
    by_cases hx : isWhiteSpace x = true
    · have ht : trim (x :: xs) = trim xs := trim_cons_whiteSpace x xs hx
      rw [ht] at h ⊢
      cases htr : trim xs with
      | nil => exact absurd htr h
      | cons c t =>
        have hc := trim_head_not_whiteSpace xs c t htr
        have hne : c ≠ x := by intro hcx; rw [hcx, hx] at hc; cases hc
        have hnp : (c :: t).isPrefixOf (x :: xs) = false := by
          simp [List.isPrefixOf, hne]
        rw [indexOfFrom, hnp]
        simp only [Bool.false_eq_true, if_false]
        rw [← htr, ih (i + 1) h]
        simp [leadingWhiteSpace, List.takeWhile, hx]
        omega
    · have hp : (trim (x :: xs)).isPrefixOf (x :: xs) = true :=
        List.isPrefixOf_iff_prefix.mpr (trim_isPrefix_of_head x xs hx)
      rw [indexOfFrom, hp]
      simp [leadingWhiteSpace, List.takeWhile, hx]

theorem indexOf_trim (line : Str) (h : trim line ≠ []) :
    indexOf line (trim line) = Int.ofNat (leadingWhiteSpace line) := by
  simpa [indexOf] using indexOfFrom_trim line 0 h

theorem validateLine_eq (jsonata : Str → Option ParseError) (acc : List Marker)
    (line : Str) (i : Nat) :
    validateLine jsonata acc line i = acc ++ (lineFinding jsonata i line).toList := by
  unfold validateLine lineFinding rejected
  by_cases hemp : trim line = []
  · simp [hemp]
  · have hidx := indexOf_trim line hemp
    cases hb : "/*".toList.isPrefixOf (trim line) with
    | true =>
      simp at hb
      simp [hb]
    | false =>
      simp at hb
      cases hp : jsonata (trim line) with
      | none => simp [hemp, hb, hp]
      | some e => simp [hemp, hidx, hb, hp]

theorem foldl_validateLine (jsonata : Str → Option ParseError) (lines : List Str) :
    ∀ (n : Nat) (acc : List Marker),
      (lines.enumFrom n).foldl (fun markers il => validateLine jsonata markers il.2 il.1) acc
        = acc ++ (lines.enumFrom n).filterMap (fun il => lineFinding jsonata il.1 il.2) := by
  induction lines with
  | nil => intro n acc; simp
  | cons l ls ih =>
    intro n acc
    simp only [List.enumFrom_cons, List.foldl_cons, List.filterMap_cons]
    rw [ih (n + 1), validateLine_eq]
    cases lineFinding jsonata n l <;> simp

theorem collectMarkers_eq (jsonata : Str → Option ParseError) (lines : List Str) :
    collectMarkers jsonata lines
      = lines.enum.filterMap (fun il => lineFinding jsonata il.1 il.2) := by
  simpa [collectMarkers, List.enum] using foldl_validateLine jsonata lines 0 []

theorem lineFinding_of_rejected (jsonata : Str → Option ParseError) (i : Nat) (line : Str)
    (e : ParseError) (hne : trim line ≠ [])
    (hcom : "/*".toList.isPrefixOf (trim line) = false) (he : jsonata (trim line) = some e) :
    lineFinding jsonata i line = some
      { message := e.message
        severity := MarkerSeverity.Error
        startLineNumber := i + 1
        startColumn := Int.ofNat (leadingWhiteSpace line) + Int.ofNat (e.position.getD 0) + 1
        endLineNumber := i + 1
        endColumn := endColumnOf
          (Int.ofNat (leadingWhiteSpace line) + Int.ofNat (e.position.getD 0) + 1) e.token } := by
  have hr : rejected jsonata line = true := by
    unfold rejected
    rw [hcom, he]
    simp [hne]
  simp only [lineFinding, hr, if_true, he, Option.map_some']

theorem lineFinding_some (jsonata : Str → Option ParseError) (i : Nat) (line : Str)
    (m : Marker) (h : lineFinding jsonata i line = some m) :
    rejected jsonata line = true ∧ m.startLineNumber = i + 1 ∧ m.endLineNumber = i + 1 ∧
    m.severity = MarkerSeverity.Error ∧
    ∃ e, jsonata (trim line) = some e ∧ m.message = e.message := by
  unfold lineFinding at h
  by_cases hr : rejected jsonata line = true
  · simp only [hr, if_true, Option.map_eq_some'] at h
    obtain ⟨e, he, hm⟩ := h
    subst hm
    exact ⟨hr, rfl, rfl, rfl, e, he, rfl⟩
  · simp [hr] at h

theorem lineFinding_none (jsonata : Str → Option ParseError) (i : Nat) (line : Str)
    (h : rejected jsonata line = false) : lineFinding jsonata i line = none := by
  simp [lineFinding, h]

theorem lineFinding_isSome (jsonata : Str → Option ParseError) (i : Nat) (line : Str)
    (h : rejected jsonata line = true) :
    ∃ m, lineFinding jsonata i line = some m ∧ m.startLineNumber = i + 1 := by
  have h2 := h
  unfold rejected at h2
  simp only [Bool.and_eq_true, Option.isSome_iff_exists] at h2
  obtain ⟨_, e, he⟩ := h2
  simp only [lineFinding, h, if_true, he, Option.map_some']
  exact ⟨_, rfl, rfl⟩

theorem mem_collectMarkers (jsonata : Str → Option ParseError) (lines : List Str)
    (m : Marker) :
    m ∈ collectMarkers jsonata lines ↔
      ∃ i line, lines[i]? = some line ∧ lineFinding jsonata i line = some m := by
  rw [collectMarkers_eq, List.mem_filterMap]
  constructor
  · rintro ⟨⟨i, line⟩, hmem, hf⟩
    exact ⟨i, line, List.mk_mem_enum_iff_getElem?.mp hmem, hf⟩
  · rintro ⟨i, line, hl, hf⟩
    exact ⟨(i, line), List.mk_mem_enum_iff_getElem?.mpr hl, hf⟩

theorem lineNumbers_filterMap (jsonata : Str → Option ParseError) (L : List (Nat × Str)) :
    (L.filterMap (fun il => lineFinding jsonata il.1 il.2)).map Marker.startLineNumber
      = (L.filter (fun il => rejected jsonata il.2)).map (fun il => il.1 + 1) := by
  induction L with
  | nil => rfl
  | cons hd tl ih =>
    cases hr : rejected jsonata hd.2 with
    | false =>
      simp [List.filterMap_cons, lineFinding_none jsonata hd.1 hd.2 hr, hr, ih]
    | true =>
      obtain ⟨m, hm, hln⟩ := lineFinding_isSome jsonata hd.1 hd.2 hr
      simp [List.filterMap_cons, hm, hr, ih, hln]

theorem finding_of_parsed_line (jsonata : Str → Option ParseError) (model : TextModel)
    (data : Val) (i : Nat) (line : Str) (e : ParseError)
    (hline : model.lines[i]? = some line) (hne : trim line ≠ [])
    (hcom : "/*".toList.isPrefixOf (trim line) = false)
    (he : jsonata (trim line) = some e) :
    (⟨e.message, MarkerSeverity.Error, i + 1,
        Int.ofNat (leadingWhiteSpace line) + Int.ofNat (e.position.getD 0) + 1, i + 1,
        endColumnOf (Int.ofNat (leadingWhiteSpace line) + Int.ofNat (e.position.getD 0) + 1)
          e.token⟩ : Marker)
      ∈ (validate jsonata model data).markers :=
  (mem_collectMarkers jsonata model.lines _).mpr
    ⟨i, line, hline, lineFinding_of_rejected jsonata i line e hne hcom he⟩

theorem finding_unique (jsonata : Str → Option ParseError) (model : TextModel)
    (data : Val) (i : Nat) (line : Str) (e : ParseError)
    (hline : model.lines[i]? = some line) (hne : trim line ≠ [])
    (hcom : "/*".toList.isPrefixOf (trim line) = false)
    (he : jsonata (trim line) = some e) (m2 : Marker)
    (hm2 : m2 ∈ (validate jsonata model data).markers) (hln : m2.startLineNumber = i + 1) :
    m2 = ⟨e.message, MarkerSeverity.Error, i + 1,
        Int.ofNat (leadingWhiteSpace line) + Int.ofNat (e.position.getD 0) + 1, i + 1,
        endColumnOf (Int.ofNat (leadingWhiteSpace line) + Int.ofNat (e.position.getD 0) + 1)
          e.token⟩ := by
  have hf := lineFinding_of_rejected jsonata i line e hne hcom he
  obtain ⟨j, line2, hl2, hf2⟩ := (mem_collectMarkers jsonata model.lines m2).mp hm2
  have hj := (lineFinding_some jsonata j line2 m2 hf2).2.1
  have hji : j = i := by omega
  subst hji
  rw [hline] at hl2
  cases hl2
  rw [hf] at hf2
  exact (Option.some.inj hf2).symm

theorem reportedWidth_pos (e : ParseError) : 0 < reportedWidth e := by
  unfold reportedWidth
  cases e.token with
  | text t =>
    by_cases ht : t = []
    · simp [ht]
    · simp only [ht, if_false]
      exact List.length_pos.mpr ht
  | _ => exact Nat.one_pos

theorem endColumnOf_of_hasWidth (start : Int) (e : ParseError)
    (h : tokenHasWidth e.token = true) :
    endColumnOf start e.token = Column.finite (start + Int.ofNat (reportedWidth e)) := by
  unfold reportedWidth
  cases ht : e.token with
  | text t =>
    by_cases hte : t = []
    · simp [endColumnOf, tokenTruthy, hte]
    · simp [endColumnOf, tokenTruthy, tokenLength, hte]
  | absent => simp [endColumnOf, tokenTruthy]
  | null => simp [endColumnOf, tokenTruthy]
  | bool b =>
    cases b with
    | false => simp [endColumnOf, tokenTruthy]
    | true => rw [ht] at h; simp [tokenHasWidth, tokenTruthy, tokenLength] at h
  | number t =>
    rw [ht] at h
    have hf : tokenTruthy (TokenValue.number t) = false := by
      simpa [tokenHasWidth, tokenLength] using h
    simp [endColumnOf, hf]
  | other => rw [ht] at h; simp [tokenHasWidth, tokenTruthy, tokenLength] at h

/-! ## Diagnostics: the claims -/

/-- C7: for a line that `validate` parses and the parser rejects with offset `pos` (0 when
none is reported), the finding of that line, the only one on it, starts at column (number
of leading white-space characters, which is the index where the trimmed text begins) +
`pos` + 1. It ends `length tok` columns later when a non-empty token text is reported and
one column later when no token, or a falsy one, is reported. When the reported token is
truthy and not a text (a number other than 0, the boolean `true`, an object), the code
reads a `length` the token does not have and the end column is `NaN`. -/
theorem validate_columns (jsonata : Str → Option ParseError) (model : TextModel)
    (data : Val) (i : Nat) (line : Str) (e : ParseError)
    (hline : model.lines[i]? = some line) (hne : trim line ≠ [])
    (hcom : "/*".toList.isPrefixOf (trim line) = false)
    (he : jsonata (trim line) = some e) :
    indexOf line (trim line) = Int.ofNat (leadingWhiteSpace line) ∧
    ∃ m ∈ (validate jsonata model data).markers,
      m.startLineNumber = i + 1 ∧
      m.startColumn
        = Int.ofNat (leadingWhiteSpace line) + Int.ofNat (e.position.getD 0) + 1 ∧
      (∀ tok, e.token = TokenValue.text tok → tok ≠ [] →
        m.endColumn = Column.finite (m.startColumn + Int.ofNat tok.length)) ∧
      (e.token = TokenValue.absent ∨ e.token = TokenValue.text [] ∨
        e.token = TokenValue.null ∨ e.token = TokenValue.bool false ∨
        e.token = TokenValue.number "0".toList →
        m.endColumn = Column.finite (m.startColumn + 1)) ∧
      (e.token = TokenValue.bool true ∨ e.token = TokenValue.other ∨
        (∃ t, e.token = TokenValue.number t ∧ t ≠ "0".toList ∧ t ≠ "NaN".toList) →
        m.endColumn = Column.nan) ∧
      ∀ m2 ∈ (validate jsonata model data).markers, m2.startLineNumber = i + 1 → m2 = m := by
  refine ⟨indexOf_trim line hne, _,
    finding_of_parsed_line jsonata model data i line e hline hne hcom he, rfl, rfl,
    ?_, ?_, ?_, ?_⟩
  · intro tok htok hnonempty
    simp [htok, endColumnOf, tokenTruthy, tokenLength, hnonempty]
  · rintro (htok | htok | htok | htok | htok) <;> simp [htok, endColumnOf, tokenTruthy]
  · rintro (htok | htok | ⟨t, htok, h0, hnan⟩)
    · simp [htok, endColumnOf, tokenTruthy, tokenLength]
    · simp [htok, endColumnOf, tokenTruthy, tokenLength]
    · have h0b : decide (t = "0".toList) = false := by simpa using h0
      have hnb : decide (t = "NaN".toList) = false := by simpa using hnan
      simp only [htok, endColumnOf, tokenTruthy, tokenLength, h0b, hnb, Bool.or_false,
        Bool.not_false, if_true]
  · intro m2 hm2 hln
    exact finding_unique jsonata model data i line e hline hne hcom he m2 hm2 hln

theorem validate_columns_witness :
    ∃ m ∈ (validate numberTokenParser
        ⟨0, "jsonata-json".toList, ["1 2".toList], [], true, false⟩ Val.null).markers,
      m.startLineNumber = 1 ∧ m.startColumn = 4 ∧ m.endColumn = Column.nan := by
  obtain ⟨_, m, hm, h1, h2, _, _, h5, _⟩ :=
    validate_columns numberTokenParser
      ⟨0, "jsonata-json".toList, ["1 2".toList], [], true, false⟩
      Val.null 0 "1 2".toList
      ⟨"Syntax error: 2".toList, some 3, TokenValue.number "2".toList,
        some "S0201".toList⟩
      (by rfl) (by decide) (by rfl) (by rfl)
  refine ⟨m, hm, h1, ?_, ?_⟩
  · rw [h2]; rfl
  · exact h5 (Or.inr (Or.inr ⟨"2".toList, rfl, by decide, by decide⟩))

/-- C8: `validate` publishes exactly one finding for each line whose trimmed text is
non-empty, does not start with `/*` and is rejected by the parser, none for any other
line, in line order; the finding of the line of index `i` has start and end line `i + 1`,
Error severity and the message of the parser. With the parser as oracle, the one-line
document `$sum(x` gets exactly one finding, on line 1, and `1 + 1` gets none. -/
theorem validate_findings (jsonata : Str → Option ParseError) (model : TextModel)
    (data : Val) :
    ((validate jsonata model data).markers.map Marker.startLineNumber
      = (model.lines.enum.filter (fun il => rejected jsonata il.2)).map (fun il => il.1 + 1)) ∧
    ((validate jsonata model data).markers.map Marker.startLineNumber).Pairwise (· < ·) ∧
    (∀ m ∈ (validate jsonata model data).markers,
      m.endLineNumber = m.startLineNumber ∧ m.severity = MarkerSeverity.Error ∧
      ∃ line e, model.lines[m.startLineNumber - 1]? = some line ∧
        rejected jsonata line = true ∧ jsonata (trim line) = some e ∧
        m.message = e.message) ∧
    (∀ e, model.lines = ["$sum(x".toList] → jsonata "$sum(x".toList = some e →
      ∃ m, (validate jsonata model data).markers = [m] ∧ m.startLineNumber = 1 ∧
        m.message = e.message) ∧
    (model.lines = ["1 + 1".toList] → jsonata "1 + 1".toList = none →
      (validate jsonata model data).markers = []) := by
  have hnum : (validate jsonata model data).markers.map Marker.startLineNumber
      = (model.lines.enum.filter (fun il => rejected jsonata il.2)).map
          (fun il => il.1 + 1) := by
    show (collectMarkers jsonata model.lines).map Marker.startLineNumber = _
    rw [collectMarkers_eq]
    exact lineNumbers_filterMap jsonata _
  refine ⟨hnum, ?_, ?_, ?_, ?_⟩
  · rw [hnum]
    have h1 : (model.lines.enum.map Prod.fst).Pairwise (· < ·) := by
      rw [List.enum_map_fst]; exact List.pairwise_lt_range _
    have h2 : ((model.lines.enum.filter (fun il => rejected jsonata il.2)).map
        Prod.fst).Pairwise (· < ·) :=
      h1.sublist ((List.filter_sublist _).map _)
    rw [List.pairwise_map] at h2 ⊢
    exact h2.imp (fun hab => Nat.succ_lt_succ hab)
  · intro m hm
    obtain ⟨i, line, hl, hf⟩ := (mem_collectMarkers jsonata model.lines m).mp hm
    obtain ⟨hr, hs, he, hsev, e, hpe, hmsg⟩ := lineFinding_some jsonata i line m hf
    refine ⟨by rw [hs, he], hsev, line, e, ?_, hr, hpe, hmsg⟩
    rw [hs]; simpa using hl
  · intro e hlines he
    have htrim : trim "$sum(x".toList = "$sum(x".toList := by rfl
    have hf := lineFinding_of_rejected jsonata 0 "$sum(x".toList e (by rw [htrim]; decide)
      (by rw [htrim]; rfl) (by rw [htrim]; exact he)
    obtain ⟨m, hm⟩ : ∃ m, lineFinding jsonata 0 "$sum(x".toList = some m := ⟨_, hf⟩
    obtain ⟨_, hs, _, _, e2, he2, hmsg⟩ := lineFinding_some jsonata 0 _ m hm
    rw [htrim, he] at he2
    cases he2
    refine ⟨m, ?_, hs, hmsg⟩
    show collectMarkers jsonata model.lines = _
    rw [collectMarkers_eq, hlines]
    simp only [List.enum, List.enumFrom, List.filterMap_cons, hm, List.filterMap_nil]
  · intro hlines he
    have htrim : trim "1 + 1".toList = "1 + 1".toList := by rfl
    have hr : rejected jsonata "1 + 1".toList = false := by
      unfold rejected; rw [htrim, he]; rfl
    show collectMarkers jsonata model.lines = _
    rw [collectMarkers_eq, hlines]
    simp only [List.enum, List.enumFrom, List.filterMap_cons,
      lineFinding_none jsonata 0 _ hr, List.filterMap_nil]

theorem validate_findings_witness :
    ∃ m, (validate parenParser ⟨0, "jsonata-json".toList, ["$sum(x".toList], [], true, false⟩
        Val.null).markers = [m] ∧ m.startLineNumber = 1 ∧
      m.message = "Expected a closing parenthesis before end of expression".toList :=
  (validate_findings parenParser ⟨0, "jsonata-json".toList, ["$sum(x".toList], [], true, false⟩
    Val.null).2.2.2.1
    ⟨"Expected a closing parenthesis before end of expression".toList, some 6,
      TokenValue.text "(end)".toList, some "S0203".toList⟩ (by rfl) (by rfl)

/-! ## Diagnostics: column bounds and parser failures -/

/-- C12, as stated, fails: for the line `$sum(x` and a parser failure at offset 6 on the
token `(end)`, the finding spans columns 7 to 12, and 12 exceeds the length of the line
plus one, which is 7. -/
theorem validate_columns_unclamped_counterexample :
    (validate parenParser ⟨0, "jsonata-json".toList, ["$sum(x".toList], [], true, false⟩
        Val.null).markers
      = [⟨"Expected a closing parenthesis before end of expression".toList,
          MarkerSeverity.Error, 1, 7, 1, Column.finite 12⟩] ∧
    ¬ ((12 : Int) ≤ Int.ofNat ("$sum(x".toList).length + 1) := by
  refine ⟨by rfl, by decide⟩

/-- C12, amended: for a failure whose reported token is a text, is missing or is falsy,
the finding of a parsed and rejected line has 1 ≤ startColumn ≤ endColumn. The columns are
not clamped to the line: endColumn is at most the length of the line plus one exactly when
leading white space + offset + width fits in the line, where the width is the length of a
non-empty token text and one otherwise. -/
theorem validate_column_bounds (jsonata : Str → Option ParseError) (model : TextModel)
    (data : Val) (i : Nat) (line : Str) (e : ParseError)
    (hline : model.lines[i]? = some line) (hne : trim line ≠ [])
    (hcom : "/*".toList.isPrefixOf (trim line) = false)
    (he : jsonata (trim line) = some e) (htok : tokenHasWidth e.token = true) :
    ∃ m ∈ (validate jsonata model data).markers,
      m.startLineNumber = i + 1 ∧ 1 ≤ m.startColumn ∧
      ∃ c, m.endColumn = Column.finite c ∧ m.startColumn ≤ c ∧
        c = m.startColumn + Int.ofNat (reportedWidth e) ∧
        (c ≤ Int.ofNat line.length + 1 ↔
          leadingWhiteSpace line + e.position.getD 0 + reportedWidth e ≤ line.length) := by
  refine ⟨_, finding_of_parsed_line jsonata model data i line e hline hne hcom he, rfl,
    ?_, _, endColumnOf_of_hasWidth _ e htok, ?_, rfl, ?_⟩
  · show (1 : Int) ≤ Int.ofNat _ + Int.ofNat _ + 1
    simp only [Int.ofNat_eq_coe]
    omega
  · show Int.ofNat _ + Int.ofNat _ + 1 ≤ Int.ofNat _ + Int.ofNat _ + 1 + Int.ofNat _
    simp only [Int.ofNat_eq_coe]
    omega
  · show Int.ofNat _ + Int.ofNat _ + 1 + Int.ofNat _ ≤ Int.ofNat _ + 1 ↔ _
    simp only [Int.ofNat_eq_coe]
    omega

theorem validate_column_bounds_witness :
    ∃ m ∈ (validate parenParser
        ⟨0, "jsonata-json".toList, ["  $sum(x".toList], [], true, false⟩ Val.null).markers,
      m.startLineNumber = 1 ∧ 1 ≤ m.startColumn ∧
      ∃ c, m.endColumn = Column.finite c ∧ m.startColumn ≤ c := by
  obtain ⟨m, hm, h1, h2, c, h3, h4, _⟩ :=
    validate_column_bounds parenParser
      ⟨0, "jsonata-json".toList, ["  $sum(x".toList], [], true, false⟩ Val.null 0
      "  $sum(x".toList
      ⟨"Expected a closing parenthesis before end of expression".toList, some 6,
        TokenValue.text "(end)".toList, some "S0203".toList⟩
      (by rfl) (by decide) (by rfl) (by rfl) (by rfl)
  exact ⟨m, hm, h1, h2, c, h3, h4⟩

/-- C13, as stated, fails: a parser failure that is no structured syntax error (it has no
code, offset or token) is caught by `validate` and published as a finding, on columns 1
to 2 of its line. -/
theorem validate_catches_crash_counterexample :
    (crashParser "x".toList).map ParseError.code = some none ∧
    (validate crashParser ⟨0, "jsonata-json".toList, ["x".toList], [], true, false⟩
        Val.null).markers
      = [⟨"Maximum call stack size exceeded".toList, MarkerSeverity.Error, 1, 1, 1,
          Column.finite 2⟩] := by
  refine ⟨by rfl, by rfl⟩

/-- C13, amended: every failure the parser raises on a parsed line, structured or not, is
caught by `validate` and becomes a finding with its message; a failure that reports neither
offset nor token is placed on the first column of the trimmed text, one column wide. No
failure stops the pass: the markers published have one finding for each rejected line. -/
theorem validate_catches_every_failure (jsonata : Str → Option ParseError)
    (model : TextModel) (data : Val) (i : Nat) (line : Str) (e : ParseError)
    (hline : model.lines[i]? = some line) (hne : trim line ≠ [])
    (hcom : "/*".toList.isPrefixOf (trim line) = false)
    (he : jsonata (trim line) = some e) :
    (∃ m ∈ (validate jsonata model data).markers,
      m.startLineNumber = i + 1 ∧ m.message = e.message ∧
      m.severity = MarkerSeverity.Error ∧
      (e.position = none → e.token = TokenValue.absent →
        m.startColumn = Int.ofNat (leadingWhiteSpace line) + 1 ∧
        m.endColumn = Column.finite (Int.ofNat (leadingWhiteSpace line) + 2))) ∧
    (validate jsonata model data).markers.length
      = (model.lines.filter (fun l => rejected jsonata l)).length := by
  refine ⟨⟨_, finding_of_parsed_line jsonata model data i line e hline hne hcom he, rfl,
    rfl, rfl, ?_⟩, ?_⟩
  · intro hp ht
    constructor
    · show Int.ofNat _ + Int.ofNat (e.position.getD 0) + 1 = _
      rw [hp]; simp
    · show endColumnOf (Int.ofNat _ + Int.ofNat (e.position.getD 0) + 1) e.token = _
      rw [hp, ht]
      simp only [endColumnOf, tokenTruthy, Option.getD_none, Int.ofNat_eq_coe,
        Bool.false_eq_true, if_false, Column.finite.injEq]
      omega
  · have h1 : (validate jsonata model data).markers.length
        = ((validate jsonata model data).markers.map Marker.startLineNumber).length := by
      simp
    rw [h1]
    show ((collectMarkers jsonata model.lines).map Marker.startLineNumber).length = _
    rw [collectMarkers_eq, lineNumbers_filterMap, List.length_map]
    have h2 : ∀ (L : List Str) (n : Nat),
        ((L.enumFrom n).filter (fun il => rejected jsonata il.2)).length
          = (L.filter (fun l => rejected jsonata l)).length := by
      intro L
      induction L with
      | nil => intro n; rfl
      | cons l ls ih =>
        intro n
        simp only [List.enumFrom_cons, List.filter_cons]
        cases rejected jsonata l <;> simp [ih (n + 1)]
    exact h2 model.lines 0

theorem validate_catches_every_failure_witness :
    ∃ m ∈ (validate crashParser ⟨0, "jsonata-json".toList, [" x".toList], [], true, false⟩
        Val.null).markers,
      m.startLineNumber = 1 ∧ m.message = "Maximum call stack size exceeded".toList := by
  obtain ⟨⟨m, hm, h1, h2, _⟩, _⟩ :=
    validate_catches_every_failure crashParser
      ⟨0, "jsonata-json".toList, [" x".toList], [], true, false⟩ Val.null 0 " x".toList
      ⟨"Maximum call stack size exceeded".toList, none, TokenValue.absent, none⟩
      (by rfl) (by decide) (by rfl) (by rfl)
  exact ⟨m, hm, h1, h2⟩

/-! ## Completion provider: the claims -/

theorem keySuggestions_eq {α : Type} (v : Val) (f : Str → α) :
    (if (truthy v && decide (typeOf v = TypeTag.tObject) && !isArray v) = true then
      (objectKeys v).map f else []) = (objectKeys v).map f := by
  cases v <;> simp [truthy, typeOf, isArray, objectKeys]

theorem objectKeys_of_not_obj (v : Val) (h : ∀ fields, v ≠ Val.obj fields) :
    objectKeys v = [] := by
  cases v with
  | obj fields => exact absurd rfl (h fields)
  | _ => rfl

/-- C5: in dotted context (the text before the cursor has a `.` and the text before its
last `.` ends in a candidate path), the suggestion labels are exactly the own keys of the
value the candidate path resolves to when that value is a non-array object, the list is
empty when it resolves to anything else, and no suggestion is a built-in: none has the
Function kind, every label is an own key of the resolved value. -/
theorem completion_dotted (host : Host) (data : Val) (lineNumber column : Nat) (word :
    WordAtPosition)
    (lineContent : Str) (i : Nat) (path : Str)
    (hdot : lastIndexOf '.' (lineContent.take (column - 1)) = some i)
    (hmatch : regexPathMatch ((lineContent.take (column - 1)).take i) = some path) :
    (∀ fields, getObjectFromPath host data (some path) = Val.obj fields →
      (provideCompletionItems host data lineNumber column word lineContent).map
        CompletionItem.label = fields.map Prod.fst) ∧
    ((∀ fields, getObjectFromPath host data (some path) ≠ Val.obj fields) →
      provideCompletionItems host data lineNumber column word lineContent = []) ∧
    (∀ s ∈ provideCompletionItems host data lineNumber column word lineContent,
      s.kind ≠ CompletionItemKind.Function ∧
      s.label ∈ objectKeys (getObjectFromPath host data (some path))) := by
  simp only [provideCompletionItems, hdot, hmatch, keySuggestions_eq]
  refine ⟨?_, ?_, ?_⟩
  · intro fields hv
    simp [hv, objectKeys, Function.comp_def]
  · intro hv
    simp [objectKeys_of_not_obj _ hv]
  · intro s hs
    simp only [Bool.false_eq_true, if_false, List.append_nil] at hs
    obtain ⟨key, hkey, rfl⟩ := List.mem_map.mp hs
    refine ⟨?_, hkey⟩
    dsimp only
    split <;> simp

theorem completion_dotted_witness :
    (provideCompletionItems standardHost sampleNested 1 3 ⟨[], 3, 3⟩ "a.".toList).map
        CompletionItem.label
      = ["b".toList, "c".toList] :=
  (completion_dotted standardHost sampleNested 1 3 ⟨[], 3, 3⟩ "a.".toList 1 "a".toList
    (by rfl) (by rfl)).1 [("b".toList, Val.num "1".toList), ("c".toList, Val.num "2".toList)] (by
        rfl)

/-- C6, as stated, fails: with the sample `{"a": 5}` and an empty text before the cursor,
the key `a` of the sample document is suggested, ahead of the built-ins. -/
theorem completion_root_counterexample :
    lastIndexOf '.' ([] : Str) = none ∧
    (provideCompletionItems standardHost sampleNumber 1 1 ⟨[], 1, 1⟩ []).map CompletionItem.label
      = "a".toList :: jsonataKeywords ∧
    (provideCompletionItems standardHost sampleNumber 1 1 ⟨[], 1, 1⟩ []).head?
      = some ⟨"a".toList, CompletionItemKind.Field, "a".toList, ⟨1, 1, 1, 1⟩⟩ ∧
    "a".toList ∈ objectKeys sampleNumber := by
  refine ⟨by rfl, by rfl, by rfl, by decide⟩

/-- C6, amended: in root context (no `.` in the text before the cursor) the suggestions
are the own keys of the sample document when it is a non-array object (none otherwise),
each tagged Module or Field, followed by the full built-in list, each tagged Function. -/
theorem completion_root (host : Host) (data : Val) (lineNumber column : Nat) (word : WordAtPosition)
    (lineContent : Str)
    (hdot : lastIndexOf '.' (lineContent.take (column - 1)) = none) :
    (provideCompletionItems host data lineNumber column word lineContent =
      (match data with
        | Val.obj fields =>
          fields.map (fun kv =>
            ⟨kv.1, if isObject (ownProperty kv.1 fields) then CompletionItemKind.Module
                   else CompletionItemKind.Field, kv.1,
              ⟨lineNumber, word.startColumn, lineNumber, word.endColumn⟩⟩)
        | _ => []) ++
      jsonataKeywords.map (fun keyword =>
        ⟨keyword, CompletionItemKind.Function, keyword,
          ⟨lineNumber, word.startColumn, lineNumber, word.endColumn⟩⟩)) ∧
    ((provideCompletionItems host data lineNumber column word lineContent).map CompletionItem.label
      = objectKeys data ++ jsonataKeywords) ∧
    (provideCompletionItems host data lineNumber column word lineContent).length
      = (objectKeys data).length + 63 := by
  have hmain : provideCompletionItems host data lineNumber column word lineContent =
      (match data with
        | Val.obj fields =>
          fields.map (fun kv =>
            ⟨kv.1, if isObject (ownProperty kv.1 fields) then CompletionItemKind.Module
                   else CompletionItemKind.Field, kv.1,
              ⟨lineNumber, word.startColumn, lineNumber, word.endColumn⟩⟩)
        | _ => []) ++
      jsonataKeywords.map (fun keyword =>
        ⟨keyword, CompletionItemKind.Function, keyword,
          ⟨lineNumber, word.startColumn, lineNumber, word.endColumn⟩⟩) := by
    simp only [provideCompletionItems, hdot, keySuggestions_eq, if_true]
    cases data with
    | obj fields =>
      simp only [objectKeys, List.map_map, List.append_cancel_right_eq]
      apply List.map_congr_left
      intro kv hkv
      simp only [Function.comp_apply, getProp, hasOwn_of_mem kv fields hkv, if_true]
    | _ => simp [objectKeys]
  refine ⟨hmain, ?_, ?_⟩
  · rw [hmain]
    cases data <;> simp [objectKeys, Function.comp_def]
  · rw [hmain]
    have hlen : jsonataKeywords.length = 63 := by rfl
    cases data <;> simp [objectKeys, hlen]

theorem completion_root_witness :
    (provideCompletionItems standardHost Val.null 1 4 ⟨"$su".toList, 1, 4⟩ "$su".toList).map
      CompletionItem.label = jsonataKeywords :=
  (completion_root standardHost Val.null 1 4 ⟨"$su".toList, 1, 4⟩ "$su".toList (by rfl)).2.1

/-! ## Hover provider: lemmas -/

theorem isUndefined_eq_false_iff (v : Val) : isUndefined v = false ↔ v ≠ Val.undefined := by
  cases v <;> simp [isUndefined]

theorem hoverContents_eq (host : Host) (token : Str) (v : Val) (h : v ≠ Val.undefined) :
    hoverContents host token v = specContents host token v := by
  cases v with
  | undefined => exact absurd rfl h
  | _ => rfl

theorem hoverForMatch_eq_some (host : Host) (data : Val) (lineNumber column : Nat)
    (m : Nat × Str) (h : Hover) :
    hoverForMatch host data lineNumber column m = some h ↔
      (m.1 + 1 ≤ column ∧ column ≤ m.1 + 1 + m.2.length) ∧
      getObjectFromPath host data (some m.2) ≠ Val.undefined ∧
      h = ⟨⟨lineNumber, m.1 + 1, lineNumber, m.1 + 1 + m.2.length⟩,
            specContents host m.2 (getObjectFromPath host data (some m.2))⟩ := by
  unfold hoverForMatch
  by_cases hc : m.1 + 1 ≤ column ∧ column ≤ m.1 + 1 + m.2.length
  · by_cases hv : getObjectFromPath host data (some m.2) = Val.undefined
    · simp [hc, hv, isUndefined]
    · have hu := (isUndefined_eq_false_iff _).mpr hv
      simp [hc, hv, hu, hoverContents_eq _ _ _ hv, eq_comm]
  · have : ¬ (m.1 + 1 ≤ column ∧ column ≤ m.1 + 1 + m.2.length) := hc
    simp only [Bool.and_eq_true, decide_eq_true_eq, hc, if_false, false_and]
    simp

theorem isTokenChar_of_isTokenStart (c : Char) (h : isTokenStart c = true) :
    isTokenChar c = true := by
  simp only [isTokenStart, isTokenChar, Char.isAlphanum, Bool.or_eq_true] at h ⊢
  rcases h with h | h
  · exact Or.inl (Or.inl (Or.inl h))
  · exact Or.inl (Or.inr h)

theorem scanTokens_some (s : Str) :
    ∀ (idx i0 : Nat) (t0 : Str),
      scanTokens idx (some (i0, t0)) s
        = (i0, t0.reverse ++ s.takeWhile isTokenChar)
          :: scanTokens (idx + (s.takeWhile isTokenChar).length) none
              (s.dropWhile isTokenChar) := by
  induction s with
  | nil => intro idx i0 t0; simp [scanTokens]
  | cons c cs ih =>
    intro idx i0 t0
    by_cases hc : isTokenChar c = true
    · have h1 : scanTokens idx (some (i0, t0)) (c :: cs)
          = scanTokens (idx + 1) (some (i0, c :: t0)) cs := by
        simp only [scanTokens, hc, if_true]
      rw [h1, ih (idx + 1) i0 (c :: t0), List.takeWhile_cons_of_pos hc,
        List.dropWhile_cons_of_pos hc]
      have h2 : idx + 1 + (List.takeWhile isTokenChar cs).length
          = idx + (c :: List.takeWhile isTokenChar cs).length := by
        simp only [List.length_cons]; omega
      rw [h2]
      simp
    · have hs : isTokenStart c = false := by
        cases hst : isTokenStart c with
        | false => rfl
        | true => exact absurd (isTokenChar_of_isTokenStart c hst) hc
      have h1 : scanTokens idx (some (i0, t0)) (c :: cs)
          = (i0, t0.reverse) :: scanTokens (idx + 1) none cs := by
        simp only [scanTokens, hc, Bool.false_eq_true, if_false]
      have h2 : scanTokens idx none (c :: cs) = scanTokens (idx + 1) none cs := by
        simp only [scanTokens, hs, Bool.false_eq_true, if_false]
      rw [h1, List.takeWhile_cons_of_neg hc, List.dropWhile_cons_of_neg hc]
      simp [h2]

theorem scanTokens_pathTokens_aux (n : Nat) :
    ∀ (s : Str), s.length ≤ n → ∀ idx, PathTokens idx s (scanTokens idx none s) := by
  induction n with
  | zero =>
    intro s hs idx
    have : s = [] := List.length_eq_zero.mp (Nat.le_zero.mp hs)
    subst this
    exact PathTokens.done idx
  | succ n ih =>
    intro s hs idx
    cases s with
    | nil => exact PathTokens.done idx
    | cons c cs =>
      have hcs : cs.length ≤ n := by simpa using hs
      by_cases hc : isTokenStart c = true
      · have h1 : scanTokens idx none (c :: cs)
            = (idx, c :: cs.takeWhile isTokenChar)
              :: scanTokens (idx + 1 + (cs.takeWhile isTokenChar).length) none
                  (cs.dropWhile isTokenChar) := by
          have h0 : scanTokens idx none (c :: cs)
              = scanTokens (idx + 1) (some (idx, [c])) cs := by
            simp only [scanTokens, hc, if_true]
          rw [h0, scanTokens_some cs (idx + 1) idx [c]]
          simp
        rw [h1]
        refine PathTokens.tok idx c cs _ hc (ih _ ?_ _)
        exact le_trans (List.Sublist.length_le (List.dropWhile_sublist _)) hcs
      · have hs2 : isTokenStart c = false := by
          cases hst : isTokenStart c with
          | false => rfl
          | true => exact absurd hst hc
        have h1 : scanTokens idx none (c :: cs) = scanTokens (idx + 1) none cs := by
          simp only [scanTokens, hs2, Bool.false_eq_true, if_false]
        rw [h1]
        exact PathTokens.skip idx c cs _ hs2 (ih cs hcs (idx + 1))

theorem scanTokens_pathTokens (s : Str) (idx : Nat) :
    PathTokens idx s (scanTokens idx none s) :=
  scanTokens_pathTokens_aux s.length s (Nat.le_refl _) idx

theorem pathTokens_unique (idx : Nat) (s : Str) (out1 out2 : List (Nat × Str))
    (h1 : PathTokens idx s out1) (h2 : PathTokens idx s out2) : out1 = out2 := by
  induction h1 generalizing out2 with
  | done idx => cases h2; rfl
  | skip idx c cs out hc _ ih =>
    cases h2 with
    | skip _ _ _ _ _ h => exact ih _ h
    | tok _ _ _ _ hc2 _ => rw [hc] at hc2; cases hc2
  | tok idx c cs out hc _ ih =>
    cases h2 with
    | skip _ _ _ _ hc2 _ => rw [hc] at hc2; cases hc2
    | tok _ _ _ _ _ h => rw [ih _ h]

theorem scanTokens_separated (s : Str) :
    (∀ idx : Nat,
      (scanTokens idx none s).Pairwise (fun a b => a.1 + a.2.length < b.1) ∧
      ∀ m ∈ scanTokens idx none s, idx ≤ m.1) ∧
    (∀ (idx i0 : Nat) (t0 : Str), i0 + t0.length = idx →
      ∃ t rest, scanTokens idx (some (i0, t0)) s = (i0, t) :: rest ∧
        rest.Pairwise (fun a b => a.1 + a.2.length < b.1) ∧
        ∀ m ∈ rest, i0 + t.length < m.1) := by
  induction s with
  | nil =>
    refine ⟨fun idx => ⟨by simp [scanTokens], by simp [scanTokens]⟩, ?_⟩
    intro idx i0 t0 _
    exact ⟨t0.reverse, [], by simp [scanTokens], List.Pairwise.nil, by simp⟩
  | cons c cs ih =>
    obtain ⟨ihA, ihB⟩ := ih
    refine ⟨?_, ?_⟩
    · intro idx
      by_cases hc : isTokenStart c = true
      · obtain ⟨t, rest, heq, hpw, hlt⟩ := ihB (idx + 1) idx [c] (by simp)
        have hout : scanTokens idx none (c :: cs) = (idx, t) :: rest := by
          simp only [scanTokens, hc, if_true, heq]
        rw [hout]
        refine ⟨List.pairwise_cons.mpr ⟨fun m hm => hlt m hm, hpw⟩, ?_⟩
        intro m hm
        rcases List.mem_cons.mp hm with rfl | hm
        · exact Nat.le_refl _
        · have := hlt m hm
          omega
      · have hout : scanTokens idx none (c :: cs) = scanTokens (idx + 1) none cs := by
          simp only [scanTokens, hc, Bool.false_eq_true, if_false]
        rw [hout]
        refine ⟨(ihA (idx + 1)).1, ?_⟩
        intro m hm
        have := (ihA (idx + 1)).2 m hm
        omega
    · intro idx i0 t0 hidx
      by_cases hc : isTokenChar c = true
      · obtain ⟨t, rest, heq, hpw, hlt⟩ := ihB (idx + 1) i0 (c :: t0) (by simp; omega)
        exact ⟨t, rest, by simp only [scanTokens, hc, if_true, heq], hpw, hlt⟩
      · refine ⟨t0.reverse, scanTokens (idx + 1) none cs, ?_, (ihA (idx + 1)).1, ?_⟩
        · simp only [scanTokens, hc, Bool.false_eq_true, if_false]
        · intro m hm
          have := (ihA (idx + 1)).2 m hm
          simp only [List.length_reverse]
          omega

theorem scanTokens_unique (lineContent : Str) (column : Nat) (m1 m2 : Nat × Str)
    (h1 : m1 ∈ scanTokens 0 none lineContent) (h2 : m2 ∈ scanTokens 0 none lineContent)
    (hc1 : m1.1 + 1 ≤ column ∧ column ≤ m1.1 + 1 + m1.2.length)
    (hc2 : m2.1 + 1 ≤ column ∧ column ≤ m2.1 + 1 + m2.2.length) : m1 = m2 := by
  by_contra hne
  have hpw := ((scanTokens_separated lineContent).1 0).1
  have hsym : (scanTokens 0 none lineContent).Pairwise
      (fun a b => a.1 + a.2.length < b.1 ∨ b.1 + b.2.length < a.1) :=
    hpw.imp (fun h => Or.inl h)
  have hR := List.Pairwise.forall (R := fun (a b : Nat × Str) =>
      a.1 + a.2.length < b.1 ∨ b.1 + b.2.length < a.1)
    (fun a b h => h.symm) hsym h1 h2 hne
  rcases hR with h | h <;> omega

theorem stringifyItems_eq (indent : Str) (items : List Val) :
    stringifyItems indent items
      = items.map (fun v => (stringifyAt indent v).getD "null".toList) := by
  induction items with
  | nil => simp [stringifyItems]
  | cons v vs ih => simp [stringifyItems, ih]

theorem stringifyFields_eq (indent : Str) (fields : List (Str × Val)) :
    stringifyFields indent fields
      = fields.filterMap (fun kv =>
          (stringifyAt indent kv.2).map (fun text =>
            quoteJSONString kv.1 ++ ": ".toList ++ text)) := by
  induction fields with
  | nil => simp [stringifyFields]
  | cons kv rest ih =>
    obtain ⟨k, v⟩ := kv
    cases hv : stringifyAt indent v with
    | none => simp [stringifyFields, hv, ih]
    | some text => simp [stringifyFields, hv, ih]

theorem stringifyAt_arr (indent : Str) (items : List Val) (h : items ≠ []) :
    stringifyAt indent (Val.arr items)
      = some (specPretty indent '[' ']'
          (items.map (fun v => (stringifyAt (indent ++ "  ".toList) v).getD "null".toList))) := by
  rw [← stringifyItems_eq]
  cases items with
  | nil => exact absurd rfl h
  | cons v vs =>
    simp [stringifyAt, stringifyItems, specPretty]

theorem stringifyAt_obj (indent : Str) (fields : List (Str × Val))
    (h : stringifyFields (indent ++ "  ".toList) fields ≠ []) :
    stringifyAt indent (Val.obj fields)
      = some (specPretty indent (Char.ofNat 123) (Char.ofNat 125)
          (fields.filterMap (fun kv =>
            (stringifyAt (indent ++ "  ".toList) kv.2).map (fun text =>
              quoteJSONString kv.1 ++ ": ".toList ++ text)))) := by
  rw [← stringifyFields_eq]
  cases hp : stringifyFields (indent ++ "  ".toList) fields with
  | nil => exact absurd hp h
  | cons part parts =>
    simp only [stringifyAt, hp, specPretty]
    rfl

theorem stringifyAt_obj_empty (indent : Str) (fields : List (Str × Val))
    (h : stringifyFields (indent ++ "  ".toList) fields = []) :
    stringifyAt indent (Val.obj fields) = some "\x7b\x7d".toList := by
  simp only [stringifyAt, h]

/-! ## Hover provider: the claim -/

/-- C9: the hover provider answers exactly when the token under the cursor resolves, as a
path against the sample document, to a value that is not `undefined`; the answer has the
span of the token as its range, and its preview is a fenced block labelled with the type
of the value that holds the 2-space pretty-printed JSON of an object or array and the plain
string form of a primitive. This holds for the provider that asks the editor for the word
under the cursor and for the provider that scans the line for path-shaped tokens: the
tokens it scans are the matches of the pattern from left to right, and at most one of
them lies under the cursor. The pretty-printed text puts every member of a non-empty array
or object on a line of its own, two spaces deeper than the brackets. -/
theorem hover_result (host : Host) (data : Val) (lineNumber column : Nat)
    (w : WordAtPosition) (lineContent : Str) :
    ((provideHover host data lineNumber (some w)).isSome = true
      ↔ getObjectFromPath host data (some w.word) ≠ Val.undefined) ∧
    provideHover host data lineNumber none = none ∧
    (∀ h, provideHover host data lineNumber (some w) = some h →
      h.range = ⟨lineNumber, w.startColumn, lineNumber, w.endColumn⟩ ∧
      h.contents = specContents host w.word (getObjectFromPath host data (some w.word))) ∧
    ((provideHoverScan host data lineNumber column lineContent).isSome = true
      ↔ ∃ m ∈ scanTokens 0 none lineContent,
          (m.1 + 1 ≤ column ∧ column ≤ m.1 + 1 + m.2.length) ∧
          getObjectFromPath host data (some m.2) ≠ Val.undefined) ∧
    (∀ h, provideHoverScan host data lineNumber column lineContent = some h →
      ∃ m ∈ scanTokens 0 none lineContent,
        (m.1 + 1 ≤ column ∧ column ≤ m.1 + 1 + m.2.length) ∧
        h.range = ⟨lineNumber, m.1 + 1, lineNumber, m.1 + 1 + m.2.length⟩ ∧
        h.contents = specContents host m.2 (getObjectFromPath host data (some m.2))) ∧
    (∀ m1 ∈ scanTokens 0 none lineContent, ∀ m2 ∈ scanTokens 0 none lineContent,
      (m1.1 + 1 ≤ column ∧ column ≤ m1.1 + 1 + m1.2.length) →
      (m2.1 + 1 ≤ column ∧ column ≤ m2.1 + 1 + m2.2.length) → m1 = m2) ∧
    (PathTokens 0 lineContent (scanTokens 0 none lineContent) ∧
      ∀ out, PathTokens 0 lineContent out → out = scanTokens 0 none lineContent) ∧
    ((∀ (indent : Str) (items : List Val), items ≠ [] →
        stringifyAt indent (Val.arr items)
          = some (specPretty indent '[' ']'
              (items.map (fun v =>
                (stringifyAt (indent ++ "  ".toList) v).getD "null".toList)))) ∧
      (∀ (indent : Str) (fields : List (Str × Val)),
        fields.filterMap (fun kv =>
          (stringifyAt (indent ++ "  ".toList) kv.2).map (fun text =>
            quoteJSONString kv.1 ++ ": ".toList ++ text)) ≠ [] →
        stringifyAt indent (Val.obj fields)
          = some (specPretty indent (Char.ofNat 123) (Char.ofNat 125)
              (fields.filterMap (fun kv =>
                (stringifyAt (indent ++ "  ".toList) kv.2).map (fun text =>
                  quoteJSONString kv.1 ++ ": ".toList ++ text))))) ∧
      (∀ (indent : Str), stringifyAt indent (Val.arr []) = some "[]".toList) ∧
      (∀ (indent : Str) (fields : List (Str × Val)),
        fields.filterMap (fun kv =>
          (stringifyAt (indent ++ "  ".toList) kv.2).map (fun text =>
            quoteJSONString kv.1 ++ ": ".toList ++ text)) = [] →
        stringifyAt indent (Val.obj fields) = some "\x7b\x7d".toList) ∧
      (∀ (indent : Str) (s : Str),
        stringifyAt indent (Val.str s) = some (quoteJSONString s)) ∧
      (∀ (indent : Str) (text : Str),
        stringifyAt indent (Val.num text) = some (numberJSON text)) ∧
      (∀ (indent : Str), stringifyAt indent Val.null = some "null".toList) ∧
      (∀ (indent : Str) (b : Bool),
        stringifyAt indent (Val.bool b)
          = some (if b then "true".toList else "false".toList)) ∧
      (∀ (v : Val) (text : Str), stringifyAt [] v = some text → jsonStringify v = text)) ∧
    (provideHover standardHost sampleNumber 1 (some ⟨"a".toList, 1, 2⟩)
        = some ⟨⟨1, 1, 1, 2⟩, ["**a**".toList, "```number\n5\n```".toList]⟩ ∧
      provideHover standardHost sampleNumber 1 (some ⟨"b".toList, 1, 2⟩) = none ∧
      provideHover standardHost sampleNested 1 (some ⟨"a".toList, 1, 2⟩)
        = some ⟨⟨1, 1, 1, 2⟩, ["**a**".toList,
            "```object\n\x7b\n  \x22b\x22: 1,\n  \x22c\x22: 2\n\x7d\n```".toList]⟩ ∧
      provideHover standardHost sampleWithArray 1 (some ⟨"a".toList, 1, 2⟩)
        = some ⟨⟨1, 1, 1, 2⟩, ["**a**".toList,
            "```object\n[\n  10,\n  20\n]\n```".toList]⟩ ∧
      provideHover standardHost sampleNumber 1 (some ⟨"constructor".toList, 1, 12⟩)
        = some ⟨⟨1, 1, 1, 12⟩, ["**constructor**".toList,
            "```function\nfunction Object() \x7b [native code] \x7d\n```".toList]⟩ ∧
      jsonStringify (Val.arr [Val.num "NaN".toList,
          Val.str ['a', quoteChar, 'b', Char.ofNat 10, backslashChar], Val.undefined])
        = "[\n  null,\n  ".toList
          ++ [quoteChar, 'a', backslashChar, quoteChar, 'b', backslashChar, 'n',
              backslashChar, backslashChar, quoteChar]
          ++ ",\n  null\n]".toList ∧
      scanTokens 0 none "$sum(a.b) + zz".toList
        = [(1, "sum".toList), (5, "a.b".toList), (12, "zz".toList)] ∧
      scanTokens 0 none "$sum(a_1.b2) + 9z".toList
        = [(1, "sum".toList), (5, "a_1.b2".toList), (16, "z".toList)] ∧
      provideHoverScan standardHost sampleNested 1 7 "$sum(a.b) + zz".toList
        = some ⟨⟨1, 6, 1, 9⟩, ["**a.b**".toList, "```number\n1\n```".toList]⟩) := by
  refine ⟨?_, rfl, ?_, ?_, ?_,
    fun m1 h1 m2 h2 hc1 hc2 => scanTokens_unique lineContent column m1 m2 h1 h2 hc1 hc2,
    ⟨scanTokens_pathTokens lineContent 0,
      fun out hout => pathTokens_unique 0 lineContent _ _ hout
        (scanTokens_pathTokens lineContent 0)⟩,
    ⟨fun indent items h => stringifyAt_arr indent items h,
      fun indent fields h =>
        stringifyAt_obj indent fields (by rw [stringifyFields_eq]; exact h),
      fun indent => by simp [stringifyAt, stringifyItems],
      fun indent fields h =>
        stringifyAt_obj_empty indent fields (by rw [stringifyFields_eq]; exact h),
      fun indent s => by simp [stringifyAt],
      fun indent text => by simp [stringifyAt],
      fun indent => by simp [stringifyAt],
      fun indent b => by simp [stringifyAt],
      fun v text h => by simp [jsonStringify, h]⟩,
    ⟨by rfl, by rfl, by rfl, by rfl, by rfl, by rfl, by rfl, by rfl, by rfl⟩⟩
  · unfold provideHover
    by_cases hv : getObjectFromPath host data (some w.word) = Val.undefined
    · simp [hv, isUndefined]
    · simp [hv, (isUndefined_eq_false_iff _).mpr hv]
  · intro h hh
    unfold provideHover at hh
    by_cases hv : getObjectFromPath host data (some w.word) = Val.undefined
    · simp [hv, isUndefined] at hh
    · simp only [(isUndefined_eq_false_iff _).mpr hv, Bool.not_false, if_true,
        Option.some.injEq] at hh
      subst hh
      exact ⟨rfl, hoverContents_eq _ _ _ hv⟩
  · unfold provideHoverScan
    rw [Option.isSome_iff_exists]
    constructor
    · rintro ⟨h, hh⟩
      obtain ⟨m, hm, hf⟩ := List.exists_of_findSome?_eq_some hh
      obtain ⟨hc, hv, _⟩ := (hoverForMatch_eq_some host data lineNumber column m h).mp hf
      exact ⟨m, hm, hc, hv⟩
    · rintro ⟨m, hm, hc, hv⟩
      have hsome : (hoverForMatch host data lineNumber column m).isSome = true := by
        rw [Option.isSome_iff_exists]
        exact ⟨_, (hoverForMatch_eq_some host data lineNumber column m _).mpr ⟨hc, hv, rfl⟩⟩
      have := List.findSome?_isSome_iff.mpr ⟨m, hm, hsome⟩
      exact Option.isSome_iff_exists.mp this
  · intro h hh
    obtain ⟨m, hm, hf⟩ := List.exists_of_findSome?_eq_some hh
    obtain ⟨hc, _, rfl⟩ := (hoverForMatch_eq_some host data lineNumber column m h).mp hf
    exact ⟨m, hm, hc, rfl, rfl⟩

theorem hover_result_witness :
    (∀ h, provideHover standardHost sampleNumber 1 (some ⟨"a".toList, 1, 2⟩) = some h →
      h.range = ⟨1, 1, 1, 2⟩ ∧
      h.contents = ["**a**".toList, "```number\n5\n```".toList]) ∧
    (provideHover standardHost sampleNumber 1 (some ⟨"b".toList, 1, 2⟩)).isSome = false := by
  have ha := hover_result standardHost sampleNumber 1 1 ⟨"a".toList, 1, 2⟩ []
  have hb := hover_result standardHost sampleNumber 1 1 ⟨"b".toList, 1, 2⟩ []
  constructor
  · intro h hh
    obtain ⟨hr, hcnt⟩ := ha.2.2.1 h hh
    exact ⟨hr, by rw [hcnt]; rfl⟩
  · cases hres : (provideHover standardHost sampleNumber 1
        (some ⟨"b".toList, 1, 2⟩)).isSome with
    | false => rfl
    | true => exact absurd (by rfl) (hb.1.mp hres)

/-! ## Sample store: the claim -/

theorem zero_not_member (host : Host) :
    "0".toList ∉ host.arrayMembers ∧ "0".toList ∉ host.objectMembers := by
  have h := host.namesNotIndices
  rw [List.all_eq_true] at h
  constructor
  · intro hm
    have := h _ (List.mem_append_right _ hm)
    revert this
    decide
  · intro hm
    have := h _ (List.mem_append_left _ hm)
    revert this
    decide

theorem getProp_proto_zero (host : Host) (parent : Val) :
    arrayProtoProperty host parent "0".toList = Val.undefined := by
  obtain ⟨h1, h2⟩ := zero_not_member host
  have h3 : "0".toList ≠ "__proto__".toList := by decide
  simp only [arrayProtoProperty, h1, if_false, objectProtoProperty, h3, h2]

theorem setData_currentSampleData (host : Host) (jsonata : Str → Option ParseError)
    (s : State) (d : Val) :
    (setData host jsonata s d).currentSampleData = specActive d := by
  cases d with
  | arr items =>
    cases items with
    | nil =>
      show getProp host (Val.arr []) "0".toList = Val.undefined
      have hown : arrayOwn [] "0".toList = none := by rfl
      simp only [getProp, hown, getProp_proto_zero]
    | cons first rest =>
      show getProp host (Val.arr (first :: rest)) "0".toList = first
      have hown : arrayOwn (first :: rest) "0".toList = some first := by
        simp [arrayOwn, arrayIndex]
      simp only [getProp, hown]
  | proto p =>
    cases p with
    | object => rfl
    | array =>
      show getProp host (Val.proto Proto.array) "0".toList = Val.undefined
      have hne : "0".toList ≠ "length".toList := by decide
      simp only [getProp, hne, if_false, getProp_proto_zero]
  | _ => rfl

theorem step_currentSampleData (host : Host) (jsonata : Str → Option ParseError) (s : State) (e :
    Event)
    (h : e.isUpdate = false) :
    (step host jsonata s e).currentSampleData = s.currentSampleData := by
  cases e with
  | update d => simp [Event.isUpdate] at h
  | createModel id language lines =>
    by_cases hl : language = languageId <;> simp [step, stepLog, hl]
  | _ => rfl

theorem run_currentSampleData (host : Host) (jsonata : Str → Option ParseError) (events : List
    Event) :
    ∀ (s : State), (∀ e ∈ events, e.isUpdate = false) →
      (run host jsonata s events).currentSampleData = s.currentSampleData := by
  induction events with
  | nil => intro s _; rfl
  | cons e rest ih =>
    intro s h
    have he := h e (List.mem_cons_self _ _)
    have hrest : ∀ x ∈ rest, x.isUpdate = false := fun x hx => h x (List.mem_cons_of_mem _ hx)
    show (run host jsonata (step host jsonata s e) rest).currentSampleData = _
    rw [ih (step host jsonata s e) hrest, step_currentSampleData host jsonata s e he]

/-- C10: after `registerJSONataLanguage(ns, d)`, and after every `update(d)`, the sample
document that completion and hover requests read is `d[0]` when `d` is an array and `d`
otherwise, for as long as no further update happens; the answers are those computed from
that document alone, whatever the state before the replacement was. -/
theorem sample_replacement (host : Host) (jsonata : Str → Option ParseError) (models : List
    TextModel)
    (s : State) (d : Val) (events : List Event)
    (hno : ∀ e ∈ events, e.isUpdate = false)
    (lineNumber column : Nat) (word : WordAtPosition) (lineContent : Str) :
    (run host jsonata (registerJSONataLanguage host jsonata models d) events).currentSampleData
      = specActive d ∧
    (run host jsonata (update host jsonata s d) events).currentSampleData = specActive d ∧
    (completionRequest host (run host jsonata (registerJSONataLanguage host jsonata models d)
        events)
        lineNumber column word lineContent
      = provideCompletionItems host (specActive d) lineNumber column word lineContent ∧
     hoverRequest host (run host jsonata (registerJSONataLanguage host jsonata models d) events)
        lineNumber (some word)
      = provideHover host (specActive d) lineNumber (some word) ∧
     hoverScanRequest host (run host jsonata (registerJSONataLanguage host jsonata models d) events)
        lineNumber column lineContent
      = provideHoverScan host (specActive d) lineNumber column lineContent) ∧
    (completionRequest host (run host jsonata (update host jsonata s d) events)
        lineNumber column word lineContent
      = provideCompletionItems host (specActive d) lineNumber column word lineContent ∧
     hoverRequest host (run host jsonata (update host jsonata s d) events) lineNumber (some word)
      = provideHover host (specActive d) lineNumber (some word) ∧
     hoverScanRequest host (run host jsonata (update host jsonata s d) events) lineNumber column
         lineContent
      = provideHoverScan host (specActive d) lineNumber column lineContent) := by
  have hreg : (run host jsonata (registerJSONataLanguage host jsonata models d)
      events).currentSampleData
      = specActive d := by
    rw [run_currentSampleData host jsonata events _ hno]
    exact setData_currentSampleData host jsonata _ d
  have hupd : (run host jsonata (update host jsonata s d) events).currentSampleData = specActive d
      := by
    rw [run_currentSampleData host jsonata events _ hno]
    exact setData_currentSampleData host jsonata s d
  refine ⟨hreg, hupd, ⟨?_, ?_, ?_⟩, ⟨?_, ?_, ?_⟩⟩
  · unfold completionRequest; rw [hreg]
  · unfold hoverRequest; rw [hreg]
  · unfold hoverScanRequest; rw [hreg]
  · unfold completionRequest; rw [hupd]
  · unfold hoverRequest; rw [hupd]
  · unfold hoverScanRequest; rw [hupd]

theorem sample_replacement_witness :
    (run standardHost parenParser (update standardHost parenParser ⟨sampleNested, []⟩ sampleList)
      [Event.createModel 1 languageId ["a.".toList],
       Event.changeContent 1 ["$sum(a".toList]]).currentSampleData = sampleNumber :=
  (sample_replacement standardHost parenParser [] ⟨sampleNested, []⟩ sampleList
    [Event.createModel 1 languageId ["a.".toList],
     Event.changeContent 1 ["$sum(a".toList]]
    (by decide) 1 1 ⟨[], 1, 1⟩ []).2.1

/-! ## Path composition -/

theorem splitOn_ne_nil (sep : Char) (s : Str) : splitOn sep s ≠ [] := by
  cases s with
  | nil => simp [splitOn]
  | cons c cs =>
    unfold splitOn
    by_cases hc : c = sep
    · simp [hc]
    · simp only [hc, if_false]
      split <;> simp

theorem splitOn_cons_of_ne (sep c : Char) (cs seg : Str) (segs : List Str) (hc : c ≠ sep)
    (h : splitOn sep cs = seg :: segs) : splitOn sep (c :: cs) = (c :: seg) :: segs := by
  rw [splitOn, if_neg hc, h]

theorem splitOn_append_sep (sep : Char) (p q : Str) :
    splitOn sep (p ++ sep :: q) = splitOn sep p ++ splitOn sep q := by
  induction p with
  | nil => simp [splitOn]
  | cons c cs ih =>
    by_cases hc : c = sep
    · subst hc
      simp [splitOn, ih]
    · cases hsp : splitOn sep cs with
      | nil => exact absurd hsp (splitOn_ne_nil sep cs)
      | cons seg segs =>
        have h1 : splitOn sep (cs ++ sep :: q) = seg :: (segs ++ splitOn sep q) := by
          rw [ih, hsp]; rfl
        rw [List.cons_append, splitOn_cons_of_ne sep c _ seg _ hc h1,
          splitOn_cons_of_ne sep c cs seg segs hc hsp]
        rfl

/-- C15: for non-empty paths `p` and `q`, resolving `p.q` is resolving `q` from the value
`p` resolves to. The law does not extend to an empty `q`: a trailing `.` adds a lookup of
the empty key to the resolution of `p`, while the empty path returns the parent; on
`{"a": 5}` the path `a.` gives `undefined` and the parent is `5`. -/
theorem getObjectFromPath_compose (host : Host) (D : Val) (p q : Str) (hp : p ≠ []) :
    (q ≠ [] → getObjectFromPath host D (some (p ++ '.' :: q))
      = getObjectFromPath host (getObjectFromPath host D (some p)) (some q)) ∧
    getObjectFromPath host D (some (p ++ ['.'])) = pathStep host (getObjectFromPath host D (some
        p)) [] ∧
    getObjectFromPath host (getObjectFromPath host D (some p)) (some []) = getObjectFromPath host D
        (some p) ∧
    (getObjectFromPath standardHost sampleNumber (some "a.".toList) = Val.undefined ∧
     getObjectFromPath standardHost (getObjectFromPath standardHost sampleNumber (some "a".toList))
         (some [])
      = Val.num "5".toList) := by
  have hpq : ∀ r : Str, p ++ '.' :: r ≠ [] := by
    intro r h
    cases p <;> simp at h
  refine ⟨?_, ?_, rfl, by rfl, by rfl⟩
  · intro hq
    rw [getObjectFromPath_nonempty host D _ (hpq q), splitOn_append_sep, List.foldl_append,
      getObjectFromPath_nonempty host D p hp, getObjectFromPath_nonempty host _ q hq]
  · rw [getObjectFromPath_nonempty host D _ (hpq []), splitOn_append_sep, List.foldl_append,
      getObjectFromPath_nonempty host D p hp]
    rfl

theorem getObjectFromPath_compose_witness :
    getObjectFromPath standardHost sampleNested (some "a.c".toList)
      = getObjectFromPath standardHost (getObjectFromPath standardHost sampleNested (some
          "a".toList))
          (some "c".toList) :=
  (getObjectFromPath_compose standardHost sampleNested "a".toList "c".toList (by decide)).1 (by
      decide)

/-! ## Candidate path extraction -/

theorem isPathChar_dot : isPathChar '.' = false := by decide

theorem pathTail_eq (s : Str) :
    ∀ inWord : Bool, pathTail inWord s =
      match splitOn '.' s with
      | [] => false
      | seg :: segs =>
        (inWord || !seg.isEmpty) && seg.all isPathChar
          && segs.all (fun seg => !seg.isEmpty && seg.all isPathChar) := by
  induction s with
  | nil => intro inWord; simp [pathTail, splitOn]
  | cons c cs ih =>
    intro inWord
    by_cases hdot : c = '.'
    · subst hdot
      have h1 := ih false
      cases hsp : splitOn '.' cs with
      | nil => exact absurd hsp (splitOn_ne_nil '.' cs)
      | cons seg segs =>
        rw [hsp] at h1
        simp only [pathTail, isPathChar_dot, Bool.false_eq_true, if_false, splitOn, if_true,
          hsp, h1]
        cases inWord <;> simp
    · cases hsp : splitOn '.' cs with
      | nil => exact absurd hsp (splitOn_ne_nil '.' cs)
      | cons seg segs =>
        have h1 := ih true
        rw [hsp] at h1
        rw [splitOn_cons_of_ne '.' c cs seg segs hdot hsp]
        by_cases hc : isPathChar c = true
        · simp only [pathTail, hc, if_true, h1]
          simp [hc]
        · have hne : (c == '.') = false := by simpa using hdot
          simp only [pathTail, hc, hne, Bool.false_and, Bool.false_eq_true, if_false]
          simp [hc]

theorem matchesPath_eq_specIsPath (s : Str) : matchesPath s = specIsPath s := by
  unfold matchesPath specIsPath
  rw [pathTail_eq s false]
  cases hsp : splitOn '.' s with
  | nil => exact absurd hsp (splitOn_ne_nil '.' s)
  | cons seg segs => simp

theorem regexPathMatch_nil : regexPathMatch [] = none := by
  simp [regexPathMatch, matchesPath, pathTail]

theorem regexPathMatch_cons (c : Char) (cs : Str) :
    regexPathMatch (c :: cs) =
      if matchesPath (c :: cs) then some (c :: cs) else regexPathMatch cs := by
  unfold regexPathMatch
  rw [List.tails_cons, List.find?_cons]
  cases matchesPath (c :: cs) <;> simp

theorem regexPathMatch_some (s path : Str) (h : regexPathMatch s = some path) :
    path <:+ s ∧ matchesPath path = true ∧
    ∀ t, t <:+ s → matchesPath t = true → t.length ≤ path.length := by
  induction s with
  | nil => rw [regexPathMatch_nil] at h; cases h
  | cons c cs ih =>
    rw [regexPathMatch_cons] at h
    by_cases hm : matchesPath (c :: cs) = true
    · rw [if_pos hm] at h
      cases h
      exact ⟨List.suffix_refl _, hm, fun t ht _ => ht.length_le⟩
    · rw [if_neg hm] at h
      obtain ⟨hsuf, hpath, hlong⟩ := ih h
      refine ⟨hsuf.trans (List.suffix_cons c cs), hpath, ?_⟩
      intro t ht htm
      rcases List.suffix_cons_iff.mp ht with rfl | ht2
      · exact absurd htm hm
      · exact hlong t ht2 htm

theorem regexPathMatch_none_iff (s : Str) :
    regexPathMatch s = none ↔ ∀ t, t <:+ s → matchesPath t = false := by
  unfold regexPathMatch
  rw [List.find?_eq_none]
  constructor
  · intro h t ht
    have := h t ((List.mem_tails t s).mpr ht)
    simpa using this
  · intro h t ht
    have := h t ((List.mem_tails t s).mp ht)
    simp [this]

theorem pathTail_last (t : Str) :
    ∀ (inWord : Bool) (c : Char), t.getLast? = some c → pathTail inWord t = true →
      isPathChar c = true := by
  induction t with
  | nil => intro inWord c h; simp at h
  | cons x xs ih =>
    intro inWord c hlast hpt
    cases xs with
    | nil =>
      simp at hlast
      subst hlast
      by_cases hx : isPathChar x = true
      · exact hx
      · simp [pathTail, hx] at hpt
    | cons y ys =>
      rw [List.getLast?_cons_cons] at hlast
      rw [pathTail] at hpt
      by_cases hx : isPathChar x = true
      · rw [if_pos hx] at hpt
        exact ih true c hlast hpt
      · rw [if_neg hx] at hpt
        split at hpt
        · exact ih false c hlast hpt
        · cases hpt

theorem matchesPath_singleton (c : Char) : matchesPath [c] = isPathChar c := by
  by_cases hc : isPathChar c = true
  · simp [matchesPath, pathTail, hc]
  · simp [matchesPath, pathTail, hc]

theorem no_candidate_iff (s : Str) :
    (∀ t, t <:+ s → matchesPath t = false) ↔
      (s = [] ∨ ∃ c, s.getLast? = some c ∧ isPathChar c = false) := by
  constructor
  · intro h
    cases hl : s.getLast? with
    | none => exact Or.inl (List.getLast?_eq_none_iff.mp hl)
    | some c =>
      refine Or.inr ⟨c, rfl, ?_⟩
      have hsuf : [c] <:+ s := by
        obtain ⟨r, hr⟩ : ∃ r, s = r ++ [c] := by
          have hne : s ≠ [] := by intro hs; rw [hs] at hl; simp at hl
          refine ⟨s.dropLast, ?_⟩
          have := List.dropLast_append_getLast? c (by simpa using hl)
          exact this.symm
        exact ⟨r, hr.symm⟩
      have := h [c] hsuf
      rwa [matchesPath_singleton] at this
  · rintro (hs | ⟨c, hl, hc⟩) t ht
    · subst hs
      have : t = [] := List.suffix_nil.mp ht
      subst this
      simp [matchesPath, pathTail]
    · by_cases hte : t = []
      · subst hte; simp [matchesPath, pathTail]
      · obtain ⟨r, hr⟩ := ht
        have htl : t.getLast? = some c := by
          rw [← hr, List.getLast?_append_of_ne_nil _ hte] at hl
          exact hl
        cases hm : matchesPath t with
        | false => rfl
        | true =>
          have := pathTail_last t false c htl hm
          rw [this] at hc
          cases hc

theorem lastIndexOf_none_iff (c : Char) (s : Str) : lastIndexOf c s = none ↔ c ∉ s := by
  induction s with
  | nil => simp [lastIndexOf]
  | cons x xs ih =>
    rw [lastIndexOf]
    cases hl : lastIndexOf c xs with
    | some j =>
      have hmem : c ∈ xs := by
        by_contra hn
        rw [ih.mpr hn] at hl
        cases hl
      simp [hmem]
    | none =>
      have hn : c ∉ xs := ih.mp hl
      by_cases hx : x = c
      · simp [hx]
      · have hx2 : ¬ c = x := fun h => hx h.symm
        simp [hx, hx2, hn]

theorem lastIndexOf_some (c : Char) (s : Str) :
    ∀ i, lastIndexOf c s = some i → s[i]? = some c ∧ c ∉ s.drop (i + 1) := by
  induction s with
  | nil => intro i h; simp [lastIndexOf] at h
  | cons x xs ih =>
    intro i h
    rw [lastIndexOf] at h
    cases hl : lastIndexOf c xs with
    | some j =>
      rw [hl] at h
      simp only [Option.some.injEq] at h
      subst h
      obtain ⟨h1, h2⟩ := ih j hl
      exact ⟨by simpa using h1, by simpa using h2⟩
    | none =>
      rw [hl] at h
      by_cases hx : x = c
      · simp only [hx, if_true, Option.some.injEq] at h
        subst h
        exact ⟨by simp [hx], by simpa using (lastIndexOf_none_iff c xs).mp hl⟩
      · simp [hx] at h

theorem completion_without_candidate (host : Host) (data : Val) (lineNumber column : Nat)
    (word : WordAtPosition) (lineContent : Str) (i : Nat)
    (hdot : lastIndexOf '.' (lineContent.take (column - 1)) = some i)
    (hnone : regexPathMatch ((lineContent.take (column - 1)).take i) = none) :
    provideCompletionItems host data lineNumber column word lineContent
      = provideCompletionItems host data lineNumber column word [] := by
  have hl : lastIndexOf '.' (([] : Str).take (column - 1)) = none := by simp [lastIndexOf]
  simp only [provideCompletionItems, hdot, hnone, hl]

theorem keyword_mem_root_completion (host : Host) (data : Val) (lineNumber column : Nat)
    (word : WordAtPosition) (keyword : Str) (hk : keyword ∈ jsonataKeywords) :
    (⟨keyword, CompletionItemKind.Function, keyword,
        ⟨lineNumber, word.startColumn, lineNumber, word.endColumn⟩⟩ : CompletionItem)
      ∈ provideCompletionItems host data lineNumber column word [] := by
  have hl : lastIndexOf '.' (([] : Str).take (column - 1)) = none := by simp [lastIndexOf]
  simp only [provideCompletionItems, hl, if_true]
  exact List.mem_append_right _ (List.mem_map.mpr ⟨keyword, hk, rfl⟩)

/-- C14: when the text before the cursor contains a `.`, the candidate path that completion
resolves is the longest suffix of the text before the last `.` that is made of non-empty
runs of `[A-Za-z0-9_]` joined by single `.` characters. No such suffix exists exactly when
that text is empty or ends in a character outside the class; completion then answers as
in root context, and every built-in is offered. -/
theorem candidate_path (host : Host) (data : Val) (lineNumber column : Nat) (word : WordAtPosition)
    (lineContent : Str) (hdot : '.' ∈ lineContent.take (column - 1)) :
    ∃ i, lastIndexOf '.' (lineContent.take (column - 1)) = some i ∧
      (lineContent.take (column - 1))[i]? = some '.' ∧
      '.' ∉ (lineContent.take (column - 1)).drop (i + 1) ∧
      (∀ path, regexPathMatch ((lineContent.take (column - 1)).take i) = some path ↔
        (path <:+ (lineContent.take (column - 1)).take i ∧ specIsPath path = true ∧
          ∀ t, t <:+ (lineContent.take (column - 1)).take i → specIsPath t = true →
            t.length ≤ path.length)) ∧
      ((∀ t, t <:+ (lineContent.take (column - 1)).take i → specIsPath t = false) ↔
        ((lineContent.take (column - 1)).take i = [] ∨
          ∃ c, ((lineContent.take (column - 1)).take i).getLast? = some c ∧
            isPathChar c = false)) ∧
      ((∀ t, t <:+ (lineContent.take (column - 1)).take i → specIsPath t = false) →
        regexPathMatch ((lineContent.take (column - 1)).take i) = none ∧
        provideCompletionItems host data lineNumber column word lineContent
          = provideCompletionItems host data lineNumber column word [] ∧
        ∀ keyword ∈ jsonataKeywords,
          (⟨keyword, CompletionItemKind.Function, keyword,
              ⟨lineNumber, word.startColumn, lineNumber, word.endColumn⟩⟩ : CompletionItem)
            ∈ provideCompletionItems host data lineNumber column word lineContent) := by
  cases hl : lastIndexOf '.' (lineContent.take (column - 1)) with
  | none => exact absurd hdot ((lastIndexOf_none_iff _ _).mp hl)
  | some i =>
    obtain ⟨hat, hafter⟩ := lastIndexOf_some _ _ i hl
    refine ⟨i, rfl, hat, hafter, ?_, ?_, ?_⟩
    · intro path
      constructor
      · intro h
        obtain ⟨h1, h2, h3⟩ := regexPathMatch_some _ path h
        refine ⟨h1, by rw [← matchesPath_eq_specIsPath]; exact h2, ?_⟩
        intro t ht hts
        exact h3 t ht (by rw [matchesPath_eq_specIsPath]; exact hts)
      · rintro ⟨h1, h2, h3⟩
        cases hr : regexPathMatch ((lineContent.take (column - 1)).take i) with
        | none =>
          have := (regexPathMatch_none_iff _).mp hr path h1
          rw [matchesPath_eq_specIsPath, h2] at this
          cases this
        | some found =>
          obtain ⟨f1, f2, f3⟩ := regexPathMatch_some _ found hr
          have hle1 : path.length ≤ found.length :=
            f3 path h1 (by rw [matchesPath_eq_specIsPath]; exact h2)
          have hle2 : found.length ≤ path.length :=
            h3 found f1 (by rw [← matchesPath_eq_specIsPath]; exact f2)
          have hsuf : found <:+ path := List.suffix_of_suffix_length_le f1 h1 hle2
          rw [hsuf.eq_of_length_le hle1]
    · simp only [← matchesPath_eq_specIsPath]
      exact no_candidate_iff _
    · intro hno
      have hnone : regexPathMatch ((lineContent.take (column - 1)).take i) = none :=
        (regexPathMatch_none_iff _).mpr
          (fun t ht => by rw [matchesPath_eq_specIsPath]; exact hno t ht)
      have heq := completion_without_candidate host data lineNumber column word lineContent i
        hl hnone
      refine ⟨hnone, heq, ?_⟩
      intro keyword hk
      rw [heq]
      exact keyword_mem_root_completion host data lineNumber column word keyword hk

theorem candidate_path_witness :
    provideCompletionItems standardHost sampleNested 1 4 ⟨[], 4, 4⟩ "a..".toList
      = provideCompletionItems standardHost sampleNested 1 4 ⟨[], 4, 4⟩ [] := by
  obtain ⟨i, hi, _, _, _, _, hroot⟩ :=
    candidate_path standardHost sampleNested 1 4 ⟨[], 4, 4⟩ "a..".toList (by decide)
  have hi2 : lastIndexOf '.' (("a..".toList).take (4 - 1)) = some 2 := by rfl
  rw [hi2] at hi
  cases hi
  have hno : ∀ t, t <:+ (("a..".toList).take (4 - 1)).take 2 → specIsPath t = false := by
    intro t ht
    have hmem := (List.mem_tails t _).mpr ht
    have htails : ((("a..".toList).take (4 - 1)).take 2).tails
        = [['a', '.'], ['.'], []] := by rfl
    rw [htails] at hmem
    simp only [List.mem_cons, List.mem_singleton, List.not_mem_nil, or_false] at hmem
    rcases hmem with rfl | rfl | rfl <;> rfl
  exact (hroot hno).2.1

/-! ## Document lifecycle -/

theorem filter_map_listening (f : TextModel → TextModel) (id : Nat)
    (hid : ∀ m, (f m).id = m.id) (hl : ∀ m, m.id = id → (f m).listening = m.listening)
    (l : List TextModel) :
    ((l.map f).filter (fun model => model.id == id)).map TextModel.listening
      = (l.filter (fun model => model.id == id)).map TextModel.listening := by
  induction l with
  | nil => rfl
  | cons m ms ih =>
    simp only [List.map_cons, List.filter_cons, hid]
    by_cases hm : m.id = id
    · simp [hm, ih, hl m hm]
    · simp [hm, ih]

theorem tracked_create (host : Host) (jsonata : Str → Option ParseError) (s : State)
    (id : Nat) (lines : List Str) (hfresh : ∀ m ∈ s.models, m.id ≠ id) :
    Tracked (step host jsonata s (Event.createModel id languageId lines)) id := by
  have hnil : s.models.filter (fun model => model.id == id) = [] := by
    rw [List.filter_eq_nil_iff]
    intro m hm
    simpa using hfresh m hm
  simp [Tracked, step, stepLog, List.filter_append, hnil, validate]

theorem tracked_step (host : Host) (jsonata : Str → Option ParseError) (s : State)
    (id : Nat) (e : Event) (ht : Tracked s id) (hk : e.keeps id = true) :
    Tracked (step host jsonata s e) id := by
  unfold Tracked at ht ⊢
  cases e with
  | createModel j language lines =>
    have hj : (j == id) = false := by simpa [Event.keeps] using hk
    by_cases hlang : language = languageId
    · simp [step, stepLog, hlang, List.filter_append, validate, hj, ht]
    · simp [step, stepLog, hlang, List.filter_append, hj, ht]
  | changeContent j lines =>
    show (List.filter _ (List.map _ s.models)).map TextModel.listening = [true]
    rw [filter_map_listening _ id _ _ s.models, ht]
    · intro m; dsimp only; split
      · split <;> rfl
      · rfl
    · intro m _; dsimp only; split
      · split <;> rfl
      · rfl
  | changeLanguage j language =>
    show (List.filter _ (List.map _ s.models)).map TextModel.listening = [true]
    rw [filter_map_listening _ id _ _ s.models, ht]
    · intro m; dsimp only; split <;> rfl
    · intro m _; dsimp only; split <;> rfl
  | disposeModel j =>
    have hj : j ≠ id := by simpa [Event.keeps] using hk
    show (List.filter _ (List.map _ s.models)).map TextModel.listening = [true]
    rw [filter_map_listening _ id _ _ s.models, ht]
    · intro m; dsimp only; split <;> rfl
    · intro m hm; dsimp only
      have hmj : ¬ m.id = j := fun h => hj (h.symm.trans hm)
      rw [if_neg hmj]
  | update d =>
    show (List.filter _ (List.map _ s.models)).map TextModel.listening = [true]
    rw [filter_map_listening _ id _ _ s.models, ht]
    · intro m; dsimp only; split <;> rfl
    · intro m _; dsimp only; split <;> rfl

theorem tracked_run (host : Host) (jsonata : Str → Option ParseError) (id : Nat)
    (events : List Event) :
    ∀ s, Tracked s id → (∀ e ∈ events, e.keeps id = true) →
      Tracked (run host jsonata s events) id := by
  induction events with
  | nil => intro s ht _; exact ht
  | cons e rest ih =>
    intro s ht hk
    show Tracked (run host jsonata (step host jsonata s e) rest) id
    exact ih _ (tracked_step host jsonata s id e ht (hk e (List.mem_cons_self _ _)))
      (fun x hx => hk x (List.mem_cons_of_mem _ hx))

theorem tracked_content_log (host : Host) (jsonata : Str → Option ParseError) (s : State)
    (id : Nat) (lines : List Str) (ht : Tracked s id) :
    (stepLog host jsonata s (Event.changeContent id lines)).2 = [id] := by
  unfold Tracked at ht
  show (s.models.filter (fun model => model.id == id && model.listening)).map TextModel.id
    = [id]
  have hsplit : s.models.filter (fun model => model.id == id && model.listening)
      = (s.models.filter (fun model => model.id == id)).filter
          (fun model => model.listening) := by
    rw [List.filter_filter]
    congr 1
    funext model
    exact Bool.and_comm _ _
  rw [hsplit]
  cases hf : s.models.filter (fun model => model.id == id) with
  | nil => rw [hf] at ht; simp at ht
  | cons m rest =>
    rw [hf] at ht
    simp only [List.map_cons, List.cons.injEq, List.map_eq_nil_iff] at ht
    obtain ⟨hl, hrest⟩ := ht
    subst hrest
    have hmem : m ∈ s.models.filter (fun model => model.id == id) := by
      rw [hf]; exact List.mem_singleton.mpr rfl
    have hid : m.id = id := by simpa using (List.mem_filter.mp hmem).2
    simp [hl, hid]

theorem disposed_content_log (host : Host) (jsonata : Str → Option ParseError) (s : State)
    (id : Nat) (lines : List Str) :
    (stepLog host jsonata (step host jsonata s (Event.disposeModel id))
      (Event.changeContent id lines)).2 = [] := by
  show ((s.models.map (fun model =>
      if model.id = id then { releaseListener model with disposed := true } else model)).filter
    (fun model => model.id == id && model.listening)).map TextModel.id = []
  rw [List.map_eq_nil_iff, List.filter_eq_nil_iff]
  intro m hm
  obtain ⟨m0, _, rfl⟩ := List.mem_map.mp hm
  by_cases h0 : m0.id = id
  · simp [h0, releaseListener]
  · simp [h0]

/-- C11, as stated, fails: a document is opened with the language, then its language is
changed to `json`; a later content change of that document still runs a validation pass,
which publishes a finding for the new content. -/
theorem lifecycle_language_change_counterexample :
    (run standardHost parenParser
      (registerJSONataLanguage standardHost parenParser [] sampleNumber)
      [Event.createModel 1 languageId ["1".toList],
       Event.changeLanguage 1 "json".toList]).models.map TextModel.languageId
      = ["json".toList] ∧
    (stepLog standardHost parenParser
      (run standardHost parenParser
        (registerJSONataLanguage standardHost parenParser [] sampleNumber)
        [Event.createModel 1 languageId ["1".toList],
         Event.changeLanguage 1 "json".toList])
      (Event.changeContent 1 ["$sum(x".toList])).2 = [1] ∧
    (run standardHost parenParser
      (registerJSONataLanguage standardHost parenParser [] sampleNumber)
      [Event.createModel 1 languageId ["1".toList],
       Event.changeLanguage 1 "json".toList,
       Event.changeContent 1 ["$sum(x".toList]]).models.map
        (fun model => model.markers.length) = [1] := by
  refine ⟨by rfl, by rfl, by rfl⟩

/-- C11, amended: a document opened with the language is validated once at once, and then
once for every content change for as long as it is not disposed, whatever else happens in
between; a change of its language does not release the subscription. Disposal releases
it: the disposed document has no content listener attached, and a content change of it
runs no validation pass. -/
theorem lifecycle_tracking (host : Host) (jsonata : Str → Option ParseError) (s : State)
    (id : Nat) (lines0 lines : List Str) (events : List Event)
    (hfresh : ∀ m ∈ s.models, m.id ≠ id) (hkeep : ∀ e ∈ events, e.keeps id = true) :
    (stepLog host jsonata s (Event.createModel id languageId lines0)).2 = [id] ∧
    (stepLog host jsonata
      (run host jsonata (step host jsonata s (Event.createModel id languageId lines0)) events)
      (Event.changeContent id lines)).2 = [id] ∧
    (∀ language,
      (stepLog host jsonata
        (step host jsonata
          (run host jsonata (step host jsonata s (Event.createModel id languageId lines0))
            events)
          (Event.changeLanguage id language))
        (Event.changeContent id lines)).2 = [id]) ∧
    ((step host jsonata
        (run host jsonata (step host jsonata s (Event.createModel id languageId lines0))
          events)
        (Event.disposeModel id)).models.filter (fun model => model.id == id)).map
      (fun model => (model.listening, model.disposed)) = [(false, true)] ∧
    (stepLog host jsonata
      (step host jsonata
        (run host jsonata (step host jsonata s (Event.createModel id languageId lines0))
          events)
        (Event.disposeModel id))
      (Event.changeContent id lines)).2 = [] := by
  have ht := tracked_run host jsonata id events _
    (tracked_create host jsonata s id lines0 hfresh) hkeep
  refine ⟨by simp [stepLog], tracked_content_log host jsonata _ id lines ht, ?_, ?_,
    disposed_content_log host jsonata _ id lines⟩
  · intro language
    exact tracked_content_log host jsonata _ id lines
      (tracked_step host jsonata _ id (Event.changeLanguage id language) ht rfl)
  · unfold Tracked at ht
    show (((run host jsonata (step host jsonata s (Event.createModel id languageId lines0))
        events).models.map (fun model =>
        if model.id = id then { releaseListener model with disposed := true }
        else model)).filter (fun model => model.id == id)).map
      (fun model => (model.listening, model.disposed)) = [(false, true)]
    generalize (run host jsonata (step host jsonata s (Event.createModel id languageId lines0))
      events).models = ms at ht
    induction ms with
    | nil => simp at ht
    | cons m rest ih =>
      by_cases hm : m.id = id
      · have hboth : m.listening = true ∧ ∀ a ∈ rest, ¬ a.id = id := by
          simpa [List.filter_cons, hm] using ht
        have hmapped : (rest.map (fun model =>
            if model.id = id then { releaseListener model with disposed := true }
            else model)).filter (fun model => model.id == id) = [] := by
          rw [List.filter_eq_nil_iff]
          intro x hx
          obtain ⟨x0, hx0, rfl⟩ := List.mem_map.mp hx
          simp [hboth.2 x0 hx0]
        rw [List.map_cons, List.filter_cons, hmapped]
        simp [hm, releaseListener]
      · have ht2 : (rest.filter (fun model => model.id == id)).map TextModel.listening
            = [true] := by
          simpa [List.filter_cons, hm] using ht
        simpa [List.filter_cons, hm] using ih ht2

theorem lifecycle_tracking_witness :
    (stepLog standardHost parenParser
      (run standardHost parenParser
        (step standardHost parenParser
          (registerJSONataLanguage standardHost parenParser [] sampleNumber)
          (Event.createModel 1 languageId ["1".toList]))
        [Event.changeContent 1 ["2".toList], Event.update sampleNested])
      (Event.changeContent 1 ["$sum(x".toList])).2 = [1] :=
  (lifecycle_tracking standardHost parenParser
    (registerJSONataLanguage standardHost parenParser [] sampleNumber) 1
    ["1".toList] ["$sum(x".toList]
    [Event.changeContent 1 ["2".toList], Event.update sampleNested]
    (by intro m hm; cases hm) (by decide)).2.1

end JsonataMode
